import Mathlib

/-!
Verification of the subgraph-extension engine (`algorithm_v3.py` and
`algorithm_v3_directed.py`).

A multiplicity matrix is modelled as a total function `ℕ → ℕ → ℤ` together
with an explicit size `N`; only indices below the size are ever read by the
algorithms.  Loops of the Python source are translated to `List.foldl` over
`List.range`, mutation of the numpy array to pointwise functional update,
`scipy.optimize.linear_sum_assignment` to a brute-force minimum over all
permutations (its documented contract: a deterministic optimal assignment),
and `float` costs to `ℤ` (all inputs considered are integral, and the
sentinel `1e10` is exactly representable).
-/

namespace Subgraphs

/-- A multiplicity / cost matrix: entry lookup as a total function. -/
def Mat : Type := ℕ → ℕ → ℤ

/-- Build a matrix from a list-of-rows literal; missing entries are `0`. -/
def ofList (rows : List (List ℤ)) : Mat :=
  fun i j => ((rows.getD i []).getD j 0)

/-- Pointwise update of a single entry (numpy `A[i, j] = x`). -/
def updateMat (A : Mat) (i j : ℕ) (x : ℤ) : Mat :=
  fun a b => if a = i ∧ b = j then x else A a b

/-- Lookup in a mapping array (`mapping[u]`). -/
def mGet (m : List ℕ) (u : ℕ) : ℕ := m.getD u 0

/-! ## Degree statistics (`calculate_degrees`, `calculate_out_degrees`, ...) -/

/-- `np.sum(adj_matrix, axis=1)`: row sums (undirected degree / out-degree). -/
def calculate_degrees (A : Mat) (N : ℕ) : ℕ → ℤ :=
  fun i => (List.range N).foldl (fun s j => s + A i j) 0

/-- `np.sum(adj_matrix, axis=0)`: column sums (in-degree). -/
def calculate_in_degrees (A : Mat) (N : ℕ) : ℕ → ℤ :=
  fun j => (List.range N).foldl (fun s i => s + A i j) 0

/-- Total degree (in + out) used by the directed variant. -/
def calculate_total_degrees (A : Mat) (N : ℕ) : ℕ → ℤ :=
  fun i => calculate_degrees A N i + calculate_in_degrees A N i

/-! ## Extension engine (`calculate_extension_cost`, `apply_extension` and
the directed variants).  The undirected cost/apply loops run over the upper
triangle `v ∈ range(u, k)`; the directed ones over all `k²` ordered pairs. -/

/-- Undirected exact extension cost: the double loop of
`calculate_extension_cost` in `algorithm_v3.py`. -/
def calculate_extension_cost (A_curr A_P : Mat) (k : ℕ) (m : List ℕ) : ℤ :=
  (List.range k).foldl (fun c u =>
    (List.range' u (k - u)).foldl (fun c v =>
      c + max 0 (A_P u v - A_curr (mGet m u) (mGet m v))) c) 0

/-- Directed exact extension cost: all ordered pairs
(`calculate_extension_cost_directed`). -/
def calculate_extension_cost_directed (A_curr A_P : Mat) (k : ℕ) (m : List ℕ) : ℤ :=
  (List.range k).foldl (fun c u =>
    (List.range k).foldl (fun c v =>
      c + max 0 (A_P u v - A_curr (mGet m u) (mGet m v))) c) 0

/-- Body of one undirected update step: add the missing multiplicity at
`(g_u, g_v)` and mirror it at `(g_v, g_u)` when the endpoints differ. -/
def applyStep (A_P : Mat) (m : List ℕ) (A : Mat) (uv : ℕ × ℕ) : Mat :=
  let g_u := mGet m uv.1
  let g_v := mGet m uv.2
  let w_missing := max 0 (A_P uv.1 uv.2 - A g_u g_v)
  if 0 < w_missing then
    let A1 := updateMat A g_u g_v (A g_u g_v + w_missing)
    if g_u ≠ g_v then updateMat A1 g_v g_u (A1 g_v g_u + w_missing) else A1
  else A

/-- Body of one directed update step: no mirroring. -/
def applyStepDirected (A_P : Mat) (m : List ℕ) (A : Mat) (uv : ℕ × ℕ) : Mat :=
  let g_u := mGet m uv.1
  let g_v := mGet m uv.2
  let w_missing := max 0 (A_P uv.1 uv.2 - A g_u g_v)
  if 0 < w_missing then updateMat A g_u g_v (A g_u g_v + w_missing) else A

/-- The pair list traversed by the undirected loops (upper triangle). -/
def upperPairs (k : ℕ) : List (ℕ × ℕ) :=
  (List.range k).flatMap (fun u => (List.range' u (k - u)).map (fun v => (u, v)))

/-- The pair list traversed by the directed loops (all ordered pairs). -/
def allPairs (k : ℕ) : List (ℕ × ℕ) :=
  (List.range k).flatMap (fun u => (List.range k).map (fun v => (u, v)))

/-- `apply_extension` of `algorithm_v3.py`. -/
def apply_extension (A_curr A_P : Mat) (k : ℕ) (m : List ℕ) : Mat :=
  (upperPairs k).foldl (applyStep A_P m) A_curr

/-- `apply_extension_directed` of `algorithm_v3_directed.py`. -/
def apply_extension_directed (A_curr A_P : Mat) (k : ℕ) (m : List ℕ) : Mat :=
  (allPairs k).foldl (applyStepDirected A_P m) A_curr

/-! ## Enumeration in `itertools` order -/

/-- `itertools.combinations(l, k)`: all sorted `k`-element sublists, in
lexicographic order of positions. -/
def combs : ℕ → List ℕ → List (List ℕ)
  | 0, _ => [[]]
  | _ + 1, [] => []
  | k + 1, x :: xs => (combs k xs).map (fun s => x :: s) ++ combs (k + 1) xs

/-- Structural worker for the permutation enumeration (the fuel is the
list length, so the kernel can evaluate it). -/
def permsAux : ℕ → List ℕ → List (List ℕ)
  | _, [] => [[]]
  | 0, _ :: _ => []
  | fuel + 1, x :: xs =>
    (x :: xs).attach.flatMap (fun y =>
      (permsAux fuel ((x :: xs).erase y.1)).map (fun p => y.1 :: p))

/-- `itertools.permutations(l)` for a duplicate-free `l`: pick each element
first in list order, recurse on the rest. -/
def permsI (l : List ℕ) : List (List ℕ) := permsAux l.length l

/-! ## Assignment solving

`scipy.optimize.linear_sum_assignment` is modelled by its contract: it
returns a minimum-cost perfect matching, deterministically.  The model
enumerates all permutations and keeps the first one attaining the minimum
(`permsI l` starts with `l` itself, so on a tie with the
identity assignment the identity is returned). -/

/-- Cost of a full assignment `σ` (row `i` matched to column `σ[i]`). -/
def assignmentCost (C : Mat) (N : ℕ) (σ : List ℕ) : ℤ :=
  (List.range N).foldl (fun s i => s + C i (mGet σ i)) 0

/-- First element of `l` attaining the minimum of `f` (strict improvement
scan, mirroring repeated `if f x < f best`). -/
def argminFirst (f : α → ℤ) (l : List α) : Option α :=
  l.foldl (fun best x =>
    match best with
    | none => some x
    | some b => if f x < f b then some x else best) none

/-- Model of `scipy.optimize.linear_sum_assignment` on an `N × N` matrix:
the optimal permutation, as the list `σ` with `σ[i]` the column of row `i`. -/
def linear_sum_assignment (C : Mat) (N : ℕ) : List ℕ :=
  (argminFirst (assignmentCost C N) (permsI (List.range N))).getD (List.range N)

/-- Inference of the number of real pattern rows when `k` is omitted: index
of the first all-zero row, else `N` (`k_best_assignment_solver`, both files). -/
def inferK (C : Mat) (N : ℕ) : ℕ :=
  (((List.range N).find? (fun i => decide (∀ j < N, C i j = 0))).getD N)

/-! ## Cost-matrix construction -/

/-- `build_cost_matrix` (linear variant): `|deg_P(u) − deg_G(v)|` for the
`k` real rows, `0` for the dummy rows. -/
def build_cost_matrix (Pdeg Gdeg : ℕ → ℤ) (k N : ℕ) : Mat :=
  fun u v => if u < k ∧ v < N then |Pdeg u - Gdeg v| else 0

/-- `build_cost_matrix_directed`: same formula on total degrees. -/
def build_cost_matrix_directed (Pdeg Gdeg : ℕ → ℤ) (k N : ℕ) : Mat :=
  fun u v => if u < k ∧ v < N then |Pdeg u - Gdeg v| else 0

/-- Best existing outgoing multiplicity from `v` to any other vertex. -/
def bestOut (A : Mat) (N v : ℕ) : ℤ :=
  (List.range N).foldl (fun b v2 => if v2 ≠ v then max b (A v v2) else b) 0

/-- Best existing incoming multiplicity into `v` from any other vertex. -/
def bestIn (A : Mat) (N v : ℕ) : ℤ :=
  (List.range N).foldl (fun b v2 => if v2 ≠ v then max b (A v2 v) else b) 0

/-- `build_cost_matrix_quadratic_directed`: neighbourhood-aware estimate. -/
def build_cost_matrix_quadratic_directed (A_curr A_P : Mat) (k N : ℕ) : Mat :=
  fun u v => if u < k ∧ v < N then
    (List.range k).foldl (fun c u2 =>
      if 0 < A_P u u2 then c + max 0 (A_P u u2 - bestOut A_curr N v) else c) 0
    + (List.range k).foldl (fun c u2 =>
      if 0 < A_P u2 u then c + max 0 (A_P u2 u - bestIn A_curr N v) else c) 0
  else 0

/-! ## Murty's algorithm (`KBestAssignments` in `algorithm_v3_directed.py`)

The priority queue holds tuples `(cost, includes, excludes, mapping)`;
`heapq` orders them lexicographically by Python tuple comparison, which the
model reproduces with an explicit comparison function.  The sentinel
`1e10` becomes the exact integer `LARGE`. -/

def LARGE : ℤ := 10000000000

structure KNode where
  cost : ℤ
  inc : List (ℕ × ℕ)
  exc : List (ℕ × ℕ)
  mapping : List ℕ
deriving DecidableEq

/-- Lexicographic comparison of constraint lists (Python list-of-tuples). -/
def listLexLtP : List (ℕ × ℕ) → List (ℕ × ℕ) → Bool
  | [], [] => false
  | [], _ :: _ => true
  | _ :: _, [] => false
  | a :: as, b :: bs =>
    if a.1 < b.1 then true else if b.1 < a.1 then false
    else if a.2 < b.2 then true else if b.2 < a.2 then false
    else listLexLtP as bs

/-- Lexicographic comparison of mapping arrays. -/
def listLexLtN : List ℕ → List ℕ → Bool
  | [], [] => false
  | [], _ :: _ => true
  | _ :: _, [] => false
  | a :: as, b :: bs =>
    if a < b then true else if b < a then false else listLexLtN as bs

/-- Python tuple order on heap entries. -/
def nodeLt (x y : KNode) : Bool :=
  if x.cost < y.cost then true else if y.cost < x.cost then false
  else if listLexLtP x.inc y.inc then true else if listLexLtP y.inc x.inc then false
  else if listLexLtP x.exc y.exc then true else if listLexLtP y.exc x.exc then false
  else listLexLtN x.mapping y.mapping

/-- `heapq.heappop`: remove and return the least entry. -/
def popMin (q : List KNode) : Option (KNode × List KNode) :=
  match q with
  | [] => none
  | x :: xs =>
    let m := xs.foldl (fun b y => if nodeLt y b then y else b) x
    some (m, q.erase m)

/-- The modified cost matrix of `solve_with_constraints`: excluded pairs
get cost `LARGE`; then each included pair forces its row (`LARGE`
everywhere, `-LARGE` on the included column), later includes overriding. -/
def modifiedCost (C : Mat) (inc exc : List (ℕ × ℕ)) : Mat :=
  inc.foldl (fun M rc => fun i j =>
      if i = rc.1 then (if j = rc.2 then -LARGE else LARGE) else M i j)
    (fun i j => if (i, j) ∈ exc then LARGE else C i j)

/-- `KBestAssignments.solve_with_constraints`: solve the modified problem,
verify the include constraints, and return the true cost (recomputed from
the original matrix) together with the first `k` column assignments. -/
def solve_with_constraints (C : Mat) (N k : ℕ) (inc exc : List (ℕ × ℕ)) :
    Option (ℤ × List ℕ) :=
  let σ := linear_sum_assignment (modifiedCost C inc exc) N
  if inc.all (fun rc => decide (rc.1 < N) && decide (mGet σ rc.1 = rc.2)) then
    some (assignmentCost C N σ, σ.take k)
  else none

/-- Children generated from a popped node: for `i = 0, …, k-1` exclude
`(i, mapping[i])` while including all earlier pairs (the `includes`
variable accumulates across the loop; `excludes` stays the node's own). -/
def expandChildren (C : Mat) (N k : ℕ) (node : KNode) : List KNode :=
  ((List.range k).foldl (fun (st : List (ℕ × ℕ) × List KNode) i =>
    let rc := (i, mGet node.mapping i)
    let newExc := node.exc ++ [rc]
    let acc := match solve_with_constraints C N k st.1 newExc with
      | some cm => st.2 ++ [⟨cm.1, st.1, newExc, cm.2⟩]
      | none => st.2
    (st.1 ++ [rc], acc)) (node.inc, [])).2

structure KBState where
  queue : List KNode
  seen : List (List ℕ)
  sols : List (ℤ × List ℕ)

/-- The main loop of `compute_k_best`, with explicit fuel.  Every
iteration pops one node, and nodes are only pushed when a solution is
emitted (at most `k` per emission, at most `maxSol` emissions), so
`maxSol * k + maxSol + 2` units of fuel are never exhausted. -/
def kbLoop (C : Mat) (N k maxSol : ℕ) : ℕ → KBState → KBState
  | 0, st => st
  | fuel + 1, st =>
    if st.sols.length < maxSol then
      match popMin st.queue with
      | none => st
      | some nr =>
        if nr.1.mapping ∈ st.seen then
          kbLoop C N k maxSol fuel ⟨nr.2, st.seen, st.sols⟩
        else
          kbLoop C N k maxSol fuel
            ⟨nr.2 ++ expandChildren C N k nr.1,
             st.seen ++ [nr.1.mapping],
             st.sols ++ [(nr.1.cost, nr.1.mapping)]⟩
    else st

/-- `KBestAssignments.compute_k_best`: list of `(cost, mapping)` solutions. -/
def compute_k_best (C : Mat) (N k maxSol : ℕ) : List (ℤ × List ℕ) :=
  match solve_with_constraints C N k [] [] with
  | none => []
  | some cm =>
    (kbLoop C N k maxSol (maxSol * k + maxSol + 2)
      ⟨[⟨cm.1, [], [], cm.2⟩], [], []⟩).sols

/-- `KBestAssignments.get_solution` for ranks `j ≥ 1` (callers never pass
`j = 0`, whose Python negative-index behaviour is not modelled). -/
def get_solution (sols : List (ℤ × List ℕ)) (j : ℕ) : Option (List ℕ) :=
  if 1 ≤ j ∧ j ≤ sols.length then some ((sols.getD (j - 1) (0, [])).2) else none

/-- `k_best_assignment_solver` of `algorithm_v3_directed.py`. -/
def k_best_assignment_solver_directed (C : Mat) (N : ℕ) (j : ℕ)
    (kOpt : Option ℕ) : List ℕ :=
  let k := kOpt.getD (inferK C N)
  if j = 1 then (linear_sum_assignment C N).take k
  else
    let sols := compute_k_best C N k (min (j + 10) 100)
    match get_solution sols j with
    | some m => m
    | none =>
      if hne : sols ≠ [] then (sols.getLast hne).2 else List.range k

/-- One swap step of the undirected `j > 1` heuristic: replace
`new_mapping[swap_idx]` by the unused vertex of least cost (CPython
iterates a set of small ints in increasing order, and `np.argmin` takes
the first minimum, so the least-index minimum over the ascending list of
unused vertices is chosen). -/
def swapStep (C : Mat) (N : ℕ) (m : List ℕ) (swap_idx : ℕ) : List ℕ :=
  let remaining := (List.range N).filter (fun v => decide (v ∉ m))
  match argminFirst (fun alt => C swap_idx alt) remaining with
  | some alt => m.set swap_idx alt
  | none => m

/-- `k_best_assignment_solver` of `algorithm_v3.py` (swap heuristic for
`j > 1`). -/
def k_best_assignment_solver (C : Mat) (N : ℕ) (j : ℕ)
    (kOpt : Option ℕ) : List ℕ :=
  let k := kOpt.getD (inferK C N)
  if j = 1 then (linear_sum_assignment C N).take k
  else
    let base := (linear_sum_assignment C N).take k
    (List.range (min (j - 1) k)).foldl (swapStep C N) base

/-! ## Orchestrators (`find_minimal_extension_v3` and the directed variant) -/

/-- One candidate-update of the exhaustive search: keep the strictly
cheaper mapping (`if cost < best_cost`). -/
def bestStep (A_curr A_P : Mat) (k : ℕ) (best : Option (List ℕ × ℤ))
    (p : List ℕ) : Option (List ℕ × ℤ) :=
  let c := calculate_extension_cost_directed A_curr A_P k p
  match best with
  | none => some (p, c)
  | some pc => if c < pc.2 then some (p, c) else best

/-- The exhaustive search of the directed run (`k ≤ 3 and N ≤ 10` branch):
iterate over all `k`-subsets in `itertools.combinations` order, skip the
ones already used, try every permutation, and keep the strictly best. -/
def exhaustiveSelect (A A_P : Mat) (N k : ℕ) (used : List (Finset ℕ)) :
    Option (List ℕ × ℤ) :=
  (combs k (List.range N)).foldl (fun best s =>
    if s.toFinset ∈ used then best
    else (permsI s).foldl (bestStep A A_P k) best) none

/-- The inner filtering loop of the undirected run: escalate the rank `j`
until the mapping's vertex set is unused; give up (`RuntimeError`) once
`j` exceeds 1000.  The fuel argument equals `1001 - j` throughout. -/
def jLoopU (C : Mat) (N k : ℕ) (used : List (Finset ℕ)) :
    ℕ → ℕ → Option (List ℕ)
  | 0, _ => none
  | fuel + 1, j =>
    let m := k_best_assignment_solver C N j (some k)
    if m.toFinset ∈ used then
      if 1000 < j + 1 then none else jLoopU C N k used fuel (j + 1)
    else some m

/-- The same filtering loop in the directed run, with the Murty solver. -/
def jLoopD (C : Mat) (N k : ℕ) (used : List (Finset ℕ)) :
    ℕ → ℕ → Option (List ℕ)
  | 0, _ => none
  | fuel + 1, j =>
    let m := k_best_assignment_solver_directed C N j (some k)
    if m.toFinset ∈ used then
      if 1000 < j + 1 then none else jLoopD C N k used fuel (j + 1)
    else some m

/-- Iterations of `find_minimal_extension_v3`: state is the working
matrix, the accumulated cost and the used-vertex-set registry. -/
def runUAux (A_P : Mat) (N k : ℕ) (Pdeg : ℕ → ℤ) :
    Mat → ℤ → List (Finset ℕ) → ℕ → Except String (Mat × ℤ)
  | A, total, _, 0 => .ok (A, total)
  | A, total, used, n + 1 =>
    let Gdeg := calculate_degrees A N
    let C := build_cost_matrix Pdeg Gdeg k N
    match jLoopU C N k used 1000 1 with
    | none => .error "Unable to find sufficient unique mappings"
    | some m =>
      let c := calculate_extension_cost A A_P k m
      runUAux A_P N k Pdeg (apply_extension A A_P k m) (total + c)
        (m.toFinset :: used) n

/-- `find_minimal_extension_v3` (undirected). -/
def find_minimal_extension_v3 (A_G A_P : Mat) (N k n : ℕ) :
    Except String (Mat × ℤ) :=
  runUAux A_P N k (calculate_degrees A_P k) A_G 0 [] n

/-- Iterations of `find_minimal_extension_v3_directed`. -/
def runDAux (A_P : Mat) (N k : ℕ) (Pdeg : ℕ → ℤ) :
    Mat → ℤ → List (Finset ℕ) → ℕ → Except String (Mat × ℤ)
  | A, total, _, 0 => .ok (A, total)
  | A, total, used, n + 1 =>
    if k ≤ 3 ∧ N ≤ 10 then
      match exhaustiveSelect A A_P N k used with
      | none => .error "Unable to find sufficient unique mappings"
      | some mc =>
        let c := calculate_extension_cost_directed A A_P k mc.1
        runDAux A_P N k Pdeg (apply_extension_directed A A_P k mc.1)
          (total + c) (mc.1.toFinset :: used) n
    else
      let Gdeg := calculate_total_degrees A N
      let C := if k ≤ 4 then build_cost_matrix_quadratic_directed A A_P k N
               else build_cost_matrix_directed Pdeg Gdeg k N
      match jLoopD C N k used 1000 1 with
      | none => .error "Unable to find sufficient unique mappings"
      | some m =>
        let c := calculate_extension_cost_directed A A_P k m
        runDAux A_P N k Pdeg (apply_extension_directed A A_P k m)
          (total + c) (m.toFinset :: used) n

/-- `find_minimal_extension_v3_directed`. -/
def find_minimal_extension_v3_directed (A_G A_P : Mat) (N k n : ℕ) :
    Except String (Mat × ℤ) :=
  runDAux A_P N k (calculate_total_degrees A_P k) A_G 0 [] n

/-- Pointwise order on matrices (element-wise `≤`). -/
def matLe (A B : Mat) : Prop := ∀ i j, A i j ≤ B i j

/-- Symmetry of a matrix. -/
def matSymm (A : Mat) : Prop := ∀ i j, A i j = A j i

/-- Sum of all entries of the `N × N` window of a matrix. -/
def entrySum (A : Mat) (N : ℕ) : ℤ :=
  ∑ i ∈ Finset.range N, ∑ j ∈ Finset.range N, A i j

/-- The all-zero matrix. -/
def zeroMat : Mat := fun _ _ => 0

/-- Shape of a well-formed mapping: duplicate-free, of length `k`, with
entries below `N`. -/
def goodMap (N k : ℕ) (m : List ℕ) : Prop :=
  m.Nodup ∧ m.length = k ∧ ∀ x ∈ m, x < N

/-- What one iteration of the directed run does in the exhaustive branch:
the selected mapping is injective, in range, has an unused vertex set,
carries its exact extension cost, that cost is globally minimal among the
injective in-range mappings with unused vertex sets, and the run recurses
on it; if instead no candidate exists the run fails with the
insufficient-mappings error. -/
def exhaustiveIterationSpec (A A_P : Mat) (N k : ℕ) (Pdeg : ℕ → ℤ)
    (total : ℤ) (used : List (Finset ℕ)) (n : ℕ) : Prop :=
  (∀ m c, exhaustiveSelect A A_P N k used = some (m, c) →
      (m.Nodup ∧ m.length = k ∧ (∀ x ∈ m, x < N) ∧ m.toFinset ∉ used)
      ∧ c = calculate_extension_cost_directed A A_P k m
      ∧ (∀ p : List ℕ, p.Nodup → p.length = k → (∀ x ∈ p, x < N) →
          p.toFinset ∉ used → c ≤ calculate_extension_cost_directed A A_P k p)
      ∧ runDAux A_P N k Pdeg A total used (n + 1)
          = runDAux A_P N k Pdeg (apply_extension_directed A A_P k m)
              (total + c) (m.toFinset :: used) n)
  ∧ (exhaustiveSelect A A_P N k used = none →
      runDAux A_P N k Pdeg A total used (n + 1)
        = .error "Unable to find sufficient unique mappings")

/-! ## Helper lemmas -/

@[simp] theorem updateMat_same (A : Mat) (i j : ℕ) (x : ℤ) :
    updateMat A i j x i j = x := by simp [updateMat]

theorem updateMat_other (A : Mat) (i j a b : ℕ) (x : ℤ) (h : ¬(a = i ∧ b = j)) :
    updateMat A i j x a b = A a b := by simp [updateMat, h]

theorem mem_combs {l : List ℕ} : ∀ {k : ℕ} {s : List ℕ},
    s ∈ combs k l ↔ s.Sublist l ∧ s.length = k := by
  induction l with
  | nil =>
    intro k s
    cases k with
    | zero =>
      simp only [combs, List.mem_singleton]
      constructor
      · rintro rfl; exact ⟨List.nil_sublist _, rfl⟩
      · rintro ⟨hs, hl⟩
        rw [List.sublist_nil.mp hs]
    | succ k =>
      simp only [combs, List.not_mem_nil, false_iff, not_and]
      intro hs
      rw [List.sublist_nil.mp hs]
      simp
  | cons x xs ih =>
    intro k s
    cases k with
    | zero =>
      simp only [combs, List.mem_singleton]
      constructor
      · rintro rfl; exact ⟨List.nil_sublist _, rfl⟩
      · rintro ⟨hs, hl⟩
        exact List.length_eq_zero.mp hl
    | succ k =>
      simp only [combs, List.mem_append, List.mem_map]
      constructor
      · rintro (⟨t, ht, rfl⟩ | h)
        · rcases ih.mp ht with ⟨hsub, hlen⟩
          exact ⟨List.cons_sublist_cons.mpr hsub, by simp [hlen]⟩
        · rcases ih.mp h with ⟨hsub, hlen⟩
          exact ⟨hsub.trans (List.sublist_cons_self x xs), hlen⟩
      · rintro ⟨hsub, hlen⟩
        cases hsub with
        | cons _ h => exact Or.inr (ih.mpr ⟨h, hlen⟩)
        | cons₂ _ h =>
          exact Or.inl ⟨_, ih.mpr ⟨h, by simpa using hlen⟩, rfl⟩

theorem permsI_eq (l : List ℕ) :
    permsI l = if l = [] then [[]]
      else l.attach.flatMap (fun x =>
        (permsI (l.erase x.1)).map (fun p => x.1 :: p)) := by
  cases l with
  | nil => rfl
  | cons x xs =>
    rw [if_neg (List.cons_ne_nil x xs)]
    show permsAux (xs.length + 1) (x :: xs) = _
    rw [permsAux]
    congr 1
    funext y
    have hlen : ((x :: xs).erase y.1).length = xs.length := by
      rw [List.length_erase_of_mem y.2, List.length_cons, Nat.add_sub_cancel]
    simp only [permsI, hlen]

theorem mem_permsI (l p : List ℕ) : p ∈ permsI l ↔ p.Perm l := by
  by_cases h : l = []
  · subst h
    rw [permsI_eq]
    simp [List.perm_nil]
  · rw [permsI_eq]
    simp only [h, ite_false, List.mem_flatMap, List.mem_map, List.mem_attach,
      true_and, Subtype.exists]
    constructor
    · rintro ⟨x, hx, q, hq, rfl⟩
      have hq' : q.Perm (l.erase x) := (mem_permsI (l.erase x) q).mp hq
      exact ((hq'.cons x).trans (List.perm_cons_erase hx).symm)
    · intro hp
      cases p with
      | nil =>
        rw [List.nil_perm] at hp
        exact absurd hp h
      | cons a q =>
        have ha : a ∈ l := hp.subset (List.mem_cons_self a q)
        have hq : q.Perm (l.erase a) :=
          (List.perm_cons a).mp (hp.trans (List.perm_cons_erase ha))
        exact ⟨a, ha, q, (mem_permsI (l.erase a) q).mpr hq, rfl⟩
termination_by l.length
decreasing_by
  · simp only [List.length_erase_of_mem hx]
    exact Nat.sub_lt (List.length_pos.mpr h) Nat.one_pos
  · simp only [List.length_erase_of_mem ha]
    exact Nat.sub_lt (List.length_pos.mpr h) Nat.one_pos

theorem permsI_cons (l : List ℕ) : ∃ t, permsI l = l :: t := by
  cases l with
  | nil =>
    exact ⟨[], rfl⟩
  | cons x xs =>
    rw [permsI_eq, if_neg (List.cons_ne_nil x xs)]
    have hx : (x :: xs).erase x = xs := List.erase_cons_head x xs
    rcases permsI_cons xs with ⟨t, ht⟩
    rw [List.attach_cons, List.flatMap_cons]
    simp only [hx, ht, List.map_cons]
    exact ⟨_, rfl⟩
termination_by l.length
decreasing_by simp

/-! ## Helper lemmas on the loop translations -/

theorem foldl_add_map (f : α → ℤ) :
    ∀ (l : List α) (init : ℤ),
      l.foldl (fun c v => c + f v) init = init + (l.map f).sum := by
  intro l
  induction l with
  | nil => intro init; simp
  | cons a t ih =>
    intro init
    simp only [List.foldl_cons, List.map_cons, List.sum_cons, ih]
    ring

theorem foldl_flatMap_pairs (F : ℕ → ℕ → ℤ) (G : ℕ → List ℕ) :
    ∀ (l : List ℕ) (init : ℤ),
      l.foldl (fun c u => (G u).foldl (fun c v => c + F u v) c) init
        = init + (l.map (fun u => ((G u).map (F u)).sum)).sum := by
  intro l
  induction l with
  | nil => intro init; simp
  | cons a t ih =>
    intro init
    simp only [List.foldl_cons, List.map_cons, List.sum_cons, ih,
      foldl_add_map]
    ring

theorem map_range'_sum (f : ℕ → ℤ) :
    ∀ (n a : ℕ), ((List.range' a n).map f).sum = ∑ i ∈ Finset.range n, f (a + i) := by
  intro n
  induction n with
  | zero => intro a; simp
  | succ m ih =>
    intro a
    rw [List.range'_succ, Finset.sum_range_succ']
    simp only [List.map_cons, List.sum_cons, ih (a + 1), Nat.add_zero]
    rw [add_comm (f a)]
    congr 1
    apply Finset.sum_congr rfl
    intro i _
    congr 1
    omega

theorem map_range_sum (f : ℕ → ℤ) (n : ℕ) :
    ((List.range n).map f).sum = ∑ i ∈ Finset.range n, f i := by
  have := map_range'_sum f n 0
  simpa [List.range_eq_range'] using this

theorem filter_le_range (k u : ℕ) :
    (Finset.range k).filter (fun v => u ≤ v) = Finset.Ico u k := by
  ext v
  simp only [Finset.mem_filter, Finset.mem_range, Finset.mem_Ico]
  omega

/-- The undirected cost loop equals the sum of shortfalls over the upper
triangle `u ≤ v < k`. -/
theorem calculate_extension_cost_eq_sum (A_curr A_P : Mat) (k : ℕ) (m : List ℕ) :
    calculate_extension_cost A_curr A_P k m
      = ∑ p ∈ (Finset.range k ×ˢ Finset.range k).filter (fun p => p.1 ≤ p.2),
          max 0 (A_P p.1 p.2 - A_curr (mGet m p.1) (mGet m p.2)) := by
  set F : ℕ → ℕ → ℤ :=
    fun u v => max 0 (A_P u v - A_curr (mGet m u) (mGet m v)) with hF
  have h1 : calculate_extension_cost A_curr A_P k m
      = ∑ u ∈ Finset.range k, ∑ v ∈ Finset.Ico u k, F u v := by
    rw [calculate_extension_cost]
    rw [foldl_flatMap_pairs F (fun u => List.range' u (k - u)) (List.range k) 0]
    rw [zero_add, map_range_sum]
    apply Finset.sum_congr rfl
    intro u hu
    rw [map_range'_sum, Finset.sum_Ico_eq_sum_range]
  rw [h1]
  rw [Finset.sum_filter, Finset.sum_product]
  apply Finset.sum_congr rfl
  intro u _
  rw [← filter_le_range k u, Finset.sum_filter]

/-- The directed cost loop equals the sum of shortfalls over all `k²`
ordered pairs. -/
theorem calculate_extension_cost_directed_eq_sum (A_curr A_P : Mat) (k : ℕ)
    (m : List ℕ) :
    calculate_extension_cost_directed A_curr A_P k m
      = ∑ p ∈ Finset.range k ×ˢ Finset.range k,
          max 0 (A_P p.1 p.2 - A_curr (mGet m p.1) (mGet m p.2)) := by
  set F : ℕ → ℕ → ℤ :=
    fun u v => max 0 (A_P u v - A_curr (mGet m u) (mGet m v)) with hF
  rw [calculate_extension_cost_directed]
  rw [foldl_flatMap_pairs F (fun _ => List.range k) (List.range k) 0]
  rw [zero_add, map_range_sum, Finset.sum_product]
  apply Finset.sum_congr rfl
  intro u _
  rw [map_range_sum]


/-! ## Monotonicity of the extension steps (no edge is ever removed) -/

theorem updateMat_le (A : Mat) (i j : ℕ) (x : ℤ) (hx : A i j ≤ x) :
    matLe A (updateMat A i j x) := by
  intro a b
  by_cases h : a = i ∧ b = j
  · rcases h with ⟨rfl, rfl⟩
    rw [updateMat_same]
    exact hx
  · rw [updateMat_other _ _ _ _ _ _ h]

theorem applyStep_le (A_P : Mat) (m : List ℕ) (A : Mat) (uv : ℕ × ℕ) :
    matLe A (applyStep A_P m A uv) := by
  simp only [applyStep]
  split_ifs with h hne
  · have h1 : matLe A (updateMat A (mGet m uv.1) (mGet m uv.2)
        (A (mGet m uv.1) (mGet m uv.2)
          + max 0 (A_P uv.1 uv.2 - A (mGet m uv.1) (mGet m uv.2)))) :=
      updateMat_le _ _ _ _ (by omega)
    intro a b
    refine le_trans (h1 a b) (updateMat_le _ _ _ _ ?_ a b)
    omega
  · exact updateMat_le _ _ _ _ (by omega)
  · intro a b; exact le_refl _

theorem applyStepDirected_le (A_P : Mat) (m : List ℕ) (A : Mat) (uv : ℕ × ℕ) :
    matLe A (applyStepDirected A_P m A uv) := by
  simp only [applyStepDirected]
  split_ifs with h
  · exact updateMat_le _ _ _ _ (by omega)
  · intro a b; exact le_refl _

theorem foldl_matLe {step : Mat → ℕ × ℕ → Mat}
    (hstep : ∀ B uv, matLe B (step B uv)) :
    ∀ (l : List (ℕ × ℕ)) (A : Mat), matLe A (l.foldl step A) := by
  intro l
  induction l with
  | nil => intro A i j; exact le_refl _
  | cons uv t ih =>
    intro A i j
    simp only [List.foldl_cons]
    exact le_trans (hstep A uv i j) (ih (step A uv) i j)

theorem apply_extension_le (A_curr A_P : Mat) (k : ℕ) (m : List ℕ) :
    matLe A_curr (apply_extension A_curr A_P k m) :=
  foldl_matLe (applyStep_le A_P m) (upperPairs k) A_curr

theorem apply_extension_directed_le (A_curr A_P : Mat) (k : ℕ) (m : List ℕ) :
    matLe A_curr (apply_extension_directed A_curr A_P k m) :=
  foldl_matLe (applyStepDirected_le A_P m) (allPairs k) A_curr

theorem runUAux_le (A_P : Mat) (N k : ℕ) (Pdeg : ℕ → ℤ) :
    ∀ (n : ℕ) (A : Mat) (total : ℤ) (used : List (Finset ℕ)) (M : Mat) (c : ℤ),
      runUAux A_P N k Pdeg A total used n = .ok (M, c) → matLe A M := by
  intro n
  induction n with
  | zero =>
    intro A total used M c h
    simp only [runUAux, Except.ok.injEq, Prod.mk.injEq] at h
    rw [← h.1]
    intro i j; exact le_refl _
  | succ n ih =>
    intro A total used M c h
    simp only [runUAux] at h
    cases hj : jLoopU (build_cost_matrix Pdeg (calculate_degrees A N) k N) N k
        used 1000 1 with
    | none => rw [hj] at h; exact absurd h (by simp)
    | some m =>
      rw [hj] at h
      intro i j
      exact le_trans (apply_extension_le A A_P k m i j)
        (ih _ _ _ _ _ h i j)

theorem runDAux_le (A_P : Mat) (N k : ℕ) (Pdeg : ℕ → ℤ) :
    ∀ (n : ℕ) (A : Mat) (total : ℤ) (used : List (Finset ℕ)) (M : Mat) (c : ℤ),
      runDAux A_P N k Pdeg A total used n = .ok (M, c) → matLe A M := by
  intro n
  induction n with
  | zero =>
    intro A total used M c h
    simp only [runDAux, Except.ok.injEq, Prod.mk.injEq] at h
    rw [← h.1]
    intro i j; exact le_refl _
  | succ n ih =>
    intro A total used M c h
    simp only [runDAux] at h
    by_cases hg : k ≤ 3 ∧ N ≤ 10
    · rw [if_pos hg] at h
      cases hx : exhaustiveSelect A A_P N k used with
      | none => rw [hx] at h; exact absurd h (by simp)
      | some mc =>
        rw [hx] at h
        intro i j
        exact le_trans (apply_extension_directed_le A A_P k mc.1 i j)
          (ih _ _ _ _ _ h i j)
    · rw [if_neg hg] at h
      cases hj : jLoopD
          (if k ≤ 4 then build_cost_matrix_quadratic_directed A A_P k N
           else build_cost_matrix_directed Pdeg (calculate_total_degrees A N) k N)
          N k used 1000 1 with
      | none => rw [hj] at h; exact absurd h (by simp)
      | some m =>
        rw [hj] at h
        intro i j
        exact le_trans (apply_extension_directed_le A A_P k m i j)
          (ih _ _ _ _ _ h i j)


/-! ## Symmetry preservation by the undirected update -/

theorem matSymm_single_update {A : Mat} (hA : matSymm A) (p : ℕ) (w : ℤ) :
    matSymm (updateMat A p p (A p p + w)) := by
  intro a b
  by_cases h1 : a = p ∧ b = p
  · rcases h1 with ⟨rfl, rfl⟩
    rfl
  · rw [updateMat_other _ _ _ _ _ _ h1,
      updateMat_other _ _ _ _ _ _ (fun hc => h1 ⟨hc.2, hc.1⟩)]
    exact hA a b

theorem matSymm_double_update {A : Mat} (hA : matSymm A) {p q : ℕ} (hpq : p ≠ q)
    (w : ℤ) :
    matSymm (updateMat (updateMat A p q (A p q + w)) q p
      ((updateMat A p q (A p q + w)) q p + w)) := by
  have hqp : (updateMat A p q (A p q + w)) q p = A q p :=
    updateMat_other _ _ _ _ _ _ (fun hc => hpq hc.1.symm)
  intro a b
  by_cases h1 : a = q ∧ b = p
  · rcases h1 with ⟨rfl, rfl⟩
    rw [updateMat_same, hqp,
      updateMat_other _ _ _ _ _ _ (fun hc => hpq hc.1), updateMat_same, hA a b]
  · rw [updateMat_other _ _ _ _ _ _ h1]
    by_cases h2 : a = p ∧ b = q
    · rcases h2 with ⟨rfl, rfl⟩
      rw [updateMat_same, updateMat_same, hqp, hA a b]
    · rw [updateMat_other _ _ _ _ _ _ h2,
        updateMat_other _ _ _ _ _ _ (fun hc => h2 ⟨hc.2, hc.1⟩),
        updateMat_other _ _ _ _ _ _ (fun hc => h1 ⟨hc.2, hc.1⟩)]
      exact hA a b

theorem applyStep_symm (A_P : Mat) (m : List ℕ) (A : Mat) (uv : ℕ × ℕ)
    (hA : matSymm A) : matSymm (applyStep A_P m A uv) := by
  simp only [applyStep]
  split_ifs with h hne
  · exact matSymm_double_update hA hne _
  · push_neg at hne
    rw [← hne] at *
    exact matSymm_single_update hA _ _
  · exact hA

theorem foldl_matSymm {step : Mat → ℕ × ℕ → Mat}
    (hstep : ∀ B uv, matSymm B → matSymm (step B uv)) :
    ∀ (l : List (ℕ × ℕ)) (A : Mat), matSymm A → matSymm (l.foldl step A) := by
  intro l
  induction l with
  | nil => intro A hA; exact hA
  | cons uv t ih =>
    intro A hA
    exact ih (step A uv) (hstep A uv hA)

theorem apply_extension_symm (A_curr A_P : Mat) (k : ℕ) (m : List ℕ)
    (hA : matSymm A_curr) : matSymm (apply_extension A_curr A_P k m) :=
  foldl_matSymm (applyStep_symm A_P m) (upperPairs k) A_curr hA

theorem runUAux_symm (A_P : Mat) (N k : ℕ) (Pdeg : ℕ → ℤ) :
    ∀ (n : ℕ) (A : Mat) (total : ℤ) (used : List (Finset ℕ)) (M : Mat) (c : ℤ),
      matSymm A → runUAux A_P N k Pdeg A total used n = .ok (M, c) → matSymm M := by
  intro n
  induction n with
  | zero =>
    intro A total used M c hA h
    simp only [runUAux, Except.ok.injEq, Prod.mk.injEq] at h
    rw [← h.1]
    exact hA
  | succ n ih =>
    intro A total used M c hA h
    simp only [runUAux] at h
    cases hj : jLoopU (build_cost_matrix Pdeg (calculate_degrees A N) k N) N k
        used 1000 1 with
    | none => rw [hj] at h; exact absurd h (by simp)
    | some m =>
      rw [hj] at h
      exact ih _ _ _ _ _ (apply_extension_symm A A_P k m hA) h

/-! ## The assignment model returns the identity on tie-free-from-above
diagonals: if no permutation beats the identity, the scan keeps it. -/

theorem argminFirst_keep (f : α → ℤ) (h : α) :
    ∀ (t : List α), (∀ x ∈ t, ¬ f x < f h) →
      t.foldl (fun best x =>
        match best with
        | none => some x
        | some b => if f x < f b then some x else best) (some h) = some h := by
  intro t
  induction t with
  | nil => intro _; rfl
  | cons a t ih =>
    intro hall
    simp only [List.foldl_cons]
    rw [if_neg (hall a (List.mem_cons_self a t))]
    exact ih (fun x hx => hall x (List.mem_cons_of_mem a hx))

theorem argminFirst_head (f : α → ℤ) (h : α) (t : List α)
    (hall : ∀ x ∈ t, ¬ f x < f h) : argminFirst f (h :: t) = some h := by
  simp only [argminFirst, List.foldl_cons]
  exact argminFirst_keep f h t hall

theorem mGet_range {N u : ℕ} (h : u < N) : mGet (List.range N) u = u := by
  rw [mGet, List.getD_eq_getElem?_getD, List.getElem?_range h]
  rfl

theorem assignmentCost_eq_sum (C : Mat) (N : ℕ) (σ : List ℕ) :
    assignmentCost C N σ = ∑ i ∈ Finset.range N, C i (mGet σ i) := by
  rw [assignmentCost, foldl_add_map, zero_add, map_range_sum]

theorem assignmentCost_nonneg (C : Mat) (N : ℕ) (σ : List ℕ)
    (hC : ∀ i j, 0 ≤ C i j) : 0 ≤ assignmentCost C N σ := by
  rw [assignmentCost_eq_sum]
  exact Finset.sum_nonneg (fun i _ => hC i (mGet σ i))

theorem assignmentCost_range_zero (C : Mat) (N : ℕ)
    (hdiag : ∀ i, i < N → C i i = 0) :
    assignmentCost C N (List.range N) = 0 := by
  rw [assignmentCost_eq_sum]
  apply Finset.sum_eq_zero
  intro i hi
  rw [Finset.mem_range] at hi
  rw [mGet_range hi]
  exact hdiag i hi

/-- When the identity assignment attains the minimum, the model returns it. -/
theorem lsa_eq_range (C : Mat) (N : ℕ)
    (hmin : ∀ σ ∈ permsI (List.range N),
      ¬ assignmentCost C N σ < assignmentCost C N (List.range N)) :
    linear_sum_assignment C N = List.range N := by
  rw [linear_sum_assignment]
  rcases permsI_cons (List.range N) with ⟨t, ht⟩
  rw [ht, argminFirst_head]
  · rfl
  · intro x hx
    exact hmin x (by rw [ht]; exact List.mem_cons_of_mem _ hx)

theorem lsa_eq_range_of_nonneg_diag_zero (C : Mat) (N : ℕ)
    (hC : ∀ i j, 0 ≤ C i j) (hdiag : ∀ i, i < N → C i i = 0) :
    linear_sum_assignment C N = List.range N := by
  apply lsa_eq_range
  intro σ _
  rw [assignmentCost_range_zero C N hdiag]
  exact not_lt.mpr (assignmentCost_nonneg C N σ hC)

/-! ## Host = pattern, identity mapping: zero cost, unchanged matrix -/

theorem calculate_extension_cost_self (A : Mat) {k N : ℕ} (hk : k ≤ N) :
    calculate_extension_cost A A k (List.range N) = 0 := by
  rw [calculate_extension_cost_eq_sum]
  apply Finset.sum_eq_zero
  intro p hp
  simp only [Finset.mem_filter, Finset.mem_product, Finset.mem_range] at hp
  rw [mGet_range (lt_of_lt_of_le hp.1.1 hk), mGet_range (lt_of_lt_of_le hp.1.2 hk)]
  simp

theorem calculate_extension_cost_directed_self (A : Mat) {k N : ℕ} (hk : k ≤ N) :
    calculate_extension_cost_directed A A k (List.range N) = 0 := by
  rw [calculate_extension_cost_directed_eq_sum]
  apply Finset.sum_eq_zero
  intro p hp
  simp only [Finset.mem_product, Finset.mem_range] at hp
  rw [mGet_range (lt_of_lt_of_le hp.1 hk), mGet_range (lt_of_lt_of_le hp.2 hk)]
  simp

theorem foldl_fixed {step : Mat → ℕ × ℕ → Mat} (A : Mat) :
    ∀ (l : List (ℕ × ℕ)), (∀ uv ∈ l, step A uv = A) → l.foldl step A = A := by
  intro l
  induction l with
  | nil => intro _; rfl
  | cons uv t ih =>
    intro hall
    simp only [List.foldl_cons, hall uv (List.mem_cons_self uv t)]
    exact ih (fun x hx => hall x (List.mem_cons_of_mem uv hx))

theorem mem_upperPairs {k : ℕ} {uv : ℕ × ℕ} (h : uv ∈ upperPairs k) :
    uv.1 < k ∧ uv.2 < k := by
  rw [upperPairs] at h
  simp only [List.mem_flatMap, List.mem_map, List.mem_range] at h
  rcases h with ⟨u, hu, v, hv, rfl⟩
  rw [List.mem_range'_1] at hv
  exact ⟨hu, by omega⟩

theorem mem_allPairs {k : ℕ} {uv : ℕ × ℕ} (h : uv ∈ allPairs k) :
    uv.1 < k ∧ uv.2 < k := by
  rw [allPairs] at h
  simp only [List.mem_flatMap, List.mem_map, List.mem_range] at h
  rcases h with ⟨u, hu, v, hv, rfl⟩
  exact ⟨hu, hv⟩

theorem applyStep_self (A : Mat) {N : ℕ} {uv : ℕ × ℕ}
    (h1 : uv.1 < N) (h2 : uv.2 < N) :
    applyStep A (List.range N) A uv = A := by
  simp only [applyStep, mGet_range h1, mGet_range h2, sub_self, max_self]
  norm_num

theorem applyStepDirected_self (A : Mat) {N : ℕ} {uv : ℕ × ℕ}
    (h1 : uv.1 < N) (h2 : uv.2 < N) :
    applyStepDirected A (List.range N) A uv = A := by
  simp only [applyStepDirected, mGet_range h1, mGet_range h2, sub_self, max_self]
  norm_num

theorem apply_extension_self (A : Mat) {k N : ℕ} (hk : k ≤ N) :
    apply_extension A A k (List.range N) = A := by
  rw [apply_extension]
  apply foldl_fixed
  intro uv huv
  have := mem_upperPairs huv
  exact applyStep_self A (lt_of_lt_of_le this.1 hk) (lt_of_lt_of_le this.2 hk)

theorem apply_extension_directed_self (A : Mat) {k N : ℕ} (hk : k ≤ N) :
    apply_extension_directed A A k (List.range N) = A := by
  rw [apply_extension_directed]
  apply foldl_fixed
  intro uv huv
  have := mem_allPairs huv
  exact applyStepDirected_self A (lt_of_lt_of_le this.1 hk) (lt_of_lt_of_le this.2 hk)

/-! ## The undirected run on host = pattern -/

theorem jLoopU_1000 (C : Mat) (N k j : ℕ) :
    jLoopU C N k [] 1000 j = some (k_best_assignment_solver C N j (some k)) := by
  rw [show (1000 : ℕ) = 999 + 1 from rfl]
  simp [jLoopU]

theorem jLoopD_1000 (C : Mat) (N k j : ℕ) :
    jLoopD C N k [] 1000 j = some (k_best_assignment_solver_directed C N j (some k)) := by
  rw [show (1000 : ℕ) = 999 + 1 from rfl]
  simp [jLoopD]

theorem solver_j1 (C : Mat) (N k : ℕ) :
    k_best_assignment_solver C N 1 (some k) = (linear_sum_assignment C N).take k := by
  simp [k_best_assignment_solver]

theorem solver_directed_j1 (C : Mat) (N k : ℕ) :
    k_best_assignment_solver_directed C N 1 (some k)
      = (linear_sum_assignment C N).take k := by
  simp [k_best_assignment_solver_directed]

theorem build_cost_matrix_nonneg (Pdeg Gdeg : ℕ → ℤ) (k N : ℕ) :
    ∀ u v, 0 ≤ build_cost_matrix Pdeg Gdeg k N u v := by
  intro u v
  rw [build_cost_matrix]
  split_ifs
  · exact abs_nonneg _
  · exact le_refl 0

theorem find_minimal_extension_v3_self (N : ℕ) (A : Mat) :
    find_minimal_extension_v3 A A N N 1 = .ok (A, 0) := by
  set D := calculate_degrees A N with hD
  set C := build_cost_matrix D D N N with hCdef
  have hdiag : ∀ i, i < N → C i i = 0 := by
    intro i hi
    rw [hCdef, build_cost_matrix, if_pos ⟨hi, hi⟩, sub_self, abs_zero]
  have hlsa : linear_sum_assignment C N = List.range N :=
    lsa_eq_range_of_nonneg_diag_zero C N (build_cost_matrix_nonneg D D N N) hdiag
  have hsolver : k_best_assignment_solver C N 1 (some N) = List.range N := by
    rw [solver_j1, hlsa]
    exact List.take_of_length_le (le_of_eq (List.length_range N))
  have hloop : jLoopU C N N [] 1000 1 = some (List.range N) := by
    rw [jLoopU_1000, hsolver]
  rw [find_minimal_extension_v3]
  rw [show (1 : ℕ) = 0 + 1 from rfl]
  simp only [runUAux]
  rw [← hD, ← hCdef, hloop]
  show runUAux A N N D (apply_extension A A N (List.range N))
      (0 + calculate_extension_cost A A N (List.range N))
      ((List.range N).toFinset :: []) 0 = .ok (A, 0)
  rw [apply_extension_self A (le_refl N),
    calculate_extension_cost_self A (le_refl N)]
  simp [runUAux]

/-! ## The exhaustive branch on host = pattern -/

theorem combs_gt : ∀ (l : List ℕ) (n : ℕ), l.length < n → combs n l = [] := by
  intro l
  induction l with
  | nil =>
    intro n h
    cases n with
    | zero => omega
    | succ n => rfl
  | cons x xs ih =>
    intro n h
    cases n with
    | zero => omega
    | succ n =>
      simp only [List.length_cons] at h
      simp only [combs, ih n (by omega), ih (n + 1) (by omega),
        List.map_nil, List.nil_append]

theorem combs_length_self : ∀ (l : List ℕ), combs l.length l = [l] := by
  intro l
  induction l with
  | nil => rfl
  | cons x xs ih =>
    simp only [List.length_cons, combs, ih, List.map_cons, List.map_nil,
      combs_gt xs (xs.length + 1) (Nat.lt_succ_self xs.length), List.append_nil]

theorem calculate_extension_cost_directed_nonneg (A P : Mat) (k : ℕ) (m : List ℕ) :
    0 ≤ calculate_extension_cost_directed A P k m := by
  rw [calculate_extension_cost_directed_eq_sum]
  exact Finset.sum_nonneg (fun p _ => le_max_left _ _)

theorem exhaustive_inner_keep (A P : Mat) (k : ℕ) (p0 : List ℕ) (c0 : ℤ) :
    ∀ (t : List (List ℕ)),
      (∀ p ∈ t, ¬ calculate_extension_cost_directed A P k p < c0) →
      t.foldl (bestStep A P k) (some (p0, c0)) = some (p0, c0) := by
  intro t
  induction t with
  | nil => intro _; rfl
  | cons a t ih =>
    intro hall
    simp only [List.foldl_cons, bestStep]
    rw [if_neg (hall a (List.mem_cons_self a t))]
    exact ih (fun p hp => hall p (List.mem_cons_of_mem a hp))

theorem exhaustiveSelect_self (A : Mat) (N : ℕ) :
    exhaustiveSelect A A N N [] = some (List.range N, 0) := by
  rw [exhaustiveSelect]
  have hc : combs N (List.range N) = [List.range N] := by
    have := combs_length_self (List.range N)
    rwa [List.length_range] at this
  rw [hc]
  rcases permsI_cons (List.range N) with ⟨t, ht⟩
  simp only [List.foldl_cons, List.not_mem_nil, if_false, ht]
  have hid : calculate_extension_cost_directed A A N (List.range N) = 0 :=
    calculate_extension_cost_directed_self A (le_refl N)
  simp only [List.foldl_cons, bestStep, hid]
  exact exhaustive_inner_keep A A N (List.range N) 0 t
    (fun p _ => not_lt.mpr (calculate_extension_cost_directed_nonneg A A N p))

/-! ## The quadratic cost matrix is minimised by the identity when the
pattern equals the host.  Key inequality: positive parts satisfy a
triangle inequality, and the best-capacity values are themselves needs. -/

theorem pospart_triangle (p q r : ℤ) :
    max 0 (p - r) ≤ max 0 (p - q) + max 0 (q - r) := by
  apply max_le
  · exact add_nonneg (le_max_left 0 _) (le_max_left 0 _)
  · have h : p - r = (p - q) + (q - r) := by ring
    rw [h]
    exact add_le_add (le_max_right 0 _) (le_max_right 0 _)

theorem pospart_eq (a b : ℤ) : max 0 (a - b) = max a b - b := by
  rcases le_total a b with h | h
  · rw [max_eq_left (by omega), max_eq_right h]
    omega
  · rw [max_eq_right (by omega), max_eq_left h]

theorem map_sum_eq_sum_mGet (g : ℕ → ℤ) :
    ∀ (l : List ℕ), (l.map g).sum = ∑ i ∈ Finset.range l.length, g (mGet l i) := by
  intro l
  induction l with
  | nil => simp
  | cons a t ih =>
    rw [List.map_cons, List.sum_cons, ih, List.length_cons, Finset.sum_range_succ']
    simp only [mGet, List.getD_cons_succ, List.getD_cons_zero]
    exact add_comm _ _

theorem perm_sum_comp (g : ℕ → ℤ) (N : ℕ) (σ : List ℕ)
    (hσ : σ.Perm (List.range N)) :
    ∑ u ∈ Finset.range N, g (mGet σ u) = ∑ v ∈ Finset.range N, g v := by
  have hlen : σ.length = N := by rw [hσ.length_eq, List.length_range]
  have h1 := map_sum_eq_sum_mGet g σ
  rw [hlen] at h1
  rw [← h1, List.Perm.sum_eq (hσ.map g), map_range_sum]

theorem pospart_flip_sum (x : ℕ → ℤ) (N : ℕ) (σ : List ℕ)
    (hσ : σ.Perm (List.range N)) :
    ∑ u ∈ Finset.range N, max 0 (x (mGet σ u) - x u)
      = ∑ u ∈ Finset.range N, max 0 (x u - x (mGet σ u)) := by
  simp only [pospart_eq]
  rw [Finset.sum_sub_distrib, Finset.sum_sub_distrib]
  rw [perm_sum_comp x N σ hσ]
  congr 1
  exact Finset.sum_congr rfl (fun u _ => max_comm _ _)

theorem monge_sum (f x : ℕ → ℤ) (N : ℕ) (σ : List ℕ)
    (hσ : σ.Perm (List.range N)) :
    ∑ u ∈ Finset.range N, max 0 (f u - x u)
      ≤ ∑ u ∈ Finset.range N,
          (max 0 (f u - x (mGet σ u)) + max 0 (x u - x (mGet σ u))) := by
  have h1 : ∑ u ∈ Finset.range N, max 0 (f u - x u)
      ≤ ∑ u ∈ Finset.range N,
          (max 0 (f u - x (mGet σ u)) + max 0 (x (mGet σ u) - x u)) :=
    Finset.sum_le_sum (fun u _ => pospart_triangle (f u) (x (mGet σ u)) (x u))
  rw [Finset.sum_add_distrib, pospart_flip_sum x N σ hσ, ← Finset.sum_add_distrib] at h1
  exact h1

/-! Facts about the running maximum `bestOut` / `bestIn`. -/

theorem maxFold_init_le (g : ℕ → ℤ) (v : ℕ) :
    ∀ (l : List ℕ) (init : ℤ),
      init ≤ l.foldl (fun b v2 => if v2 ≠ v then max b (g v2) else b) init := by
  intro l
  induction l with
  | nil => intro init; exact le_refl _
  | cons a t ih =>
    intro init
    simp only [List.foldl_cons]
    refine le_trans ?_ (ih _)
    split_ifs
    · exact le_max_left _ _
    · exact le_refl _

theorem maxFold_ge_mem (g : ℕ → ℤ) (v : ℕ) :
    ∀ (l : List ℕ) (init : ℤ) (v2 : ℕ), v2 ∈ l → v2 ≠ v →
      g v2 ≤ l.foldl (fun b v2 => if v2 ≠ v then max b (g v2) else b) init := by
  intro l
  induction l with
  | nil => intro init v2 h _; exact absurd h (List.not_mem_nil v2)
  | cons a t ih =>
    intro init v2 h hne
    rcases List.mem_cons.mp h with rfl | hmem
    · simp only [List.foldl_cons, if_pos hne]
      exact le_trans (le_max_right _ _) (maxFold_init_le g v t _)
    · exact ih _ v2 hmem hne

theorem maxFold_cases (g : ℕ → ℤ) (v : ℕ) :
    ∀ (l : List ℕ) (init : ℤ),
      l.foldl (fun b v2 => if v2 ≠ v then max b (g v2) else b) init = init
        ∨ ∃ v2 ∈ l, v2 ≠ v ∧
            l.foldl (fun b v2 => if v2 ≠ v then max b (g v2) else b) init = g v2 := by
  intro l
  induction l with
  | nil => intro init; exact Or.inl rfl
  | cons a t ih =>
    intro init
    simp only [List.foldl_cons]
    by_cases ha : a ≠ v
    · rw [if_pos ha]
      rcases ih (max init (g a)) with h | ⟨v2, hv2, hne, h⟩
      · rcases max_choice init (g a) with hm | hm
        · exact Or.inl (by rw [h, hm])
        · exact Or.inr ⟨a, List.mem_cons_self a t, ha, by rw [h, hm]⟩
      · exact Or.inr ⟨v2, List.mem_cons_of_mem a hv2, hne, h⟩
    · rw [if_neg ha]
      rcases ih init with h | ⟨v2, hv2, hne, h⟩
      · exact Or.inl h
      · exact Or.inr ⟨v2, List.mem_cons_of_mem a hv2, hne, h⟩

theorem bestOut_nonneg (A : Mat) (N v : ℕ) : 0 ≤ bestOut A N v :=
  maxFold_init_le (fun v2 => A v v2) v (List.range N) 0

theorem bestIn_nonneg (A : Mat) (N v : ℕ) : 0 ≤ bestIn A N v :=
  maxFold_init_le (fun v2 => A v2 v) v (List.range N) 0

theorem bestOut_ge (A : Mat) {N v v2 : ℕ} (h : v2 < N) (hne : v2 ≠ v) :
    A v v2 ≤ bestOut A N v :=
  maxFold_ge_mem (fun v2 => A v v2) v (List.range N) 0 v2
    (List.mem_range.mpr h) hne

theorem bestIn_ge (A : Mat) {N v v2 : ℕ} (h : v2 < N) (hne : v2 ≠ v) :
    A v2 v ≤ bestIn A N v :=
  maxFold_ge_mem (fun v2 => A v2 v) v (List.range N) 0 v2
    (List.mem_range.mpr h) hne

theorem bestOut_attained (A : Mat) (N v : ℕ) :
    bestOut A N v = 0 ∨ ∃ v2, v2 < N ∧ v2 ≠ v ∧ bestOut A N v = A v v2 := by
  rcases maxFold_cases (fun v2 => A v v2) v (List.range N) 0 with h | ⟨v2, hv2, hne, h⟩
  · exact Or.inl h
  · exact Or.inr ⟨v2, List.mem_range.mp hv2, hne, h⟩

theorem bestIn_attained (A : Mat) (N v : ℕ) :
    bestIn A N v = 0 ∨ ∃ v2, v2 < N ∧ v2 ≠ v ∧ bestIn A N v = A v2 v := by
  rcases maxFold_cases (fun v2 => A v2 v) v (List.range N) 0 with h | ⟨v2, hv2, hne, h⟩
  · exact Or.inl h
  · exact Or.inr ⟨v2, List.mem_range.mp hv2, hne, h⟩

theorem foldl_add_if_map (P : ℕ → Prop) [DecidablePred P] (f : ℕ → ℤ) :
    ∀ (l : List ℕ) (init : ℤ),
      l.foldl (fun c i => if P i then c + f i else c) init
        = init + (l.map (fun i => if P i then f i else 0)).sum := by
  intro l
  induction l with
  | nil => intro init; simp
  | cons a t ih =>
    intro init
    simp only [List.foldl_cons, List.map_cons, List.sum_cons, ih]
    split_ifs
    · ring
    · ring

/-- The quadratic estimate as two sums, at valid indices. -/
theorem quad_eq_sum (A_curr A_P : Mat) {k N u v : ℕ} (hu : u < k) (hv : v < N) :
    build_cost_matrix_quadratic_directed A_curr A_P k N u v
      = (∑ u2 ∈ Finset.range k,
          if 0 < A_P u u2 then max 0 (A_P u u2 - bestOut A_curr N v) else 0)
      + (∑ u2 ∈ Finset.range k,
          if 0 < A_P u2 u then max 0 (A_P u2 u - bestIn A_curr N v) else 0) := by
  rw [build_cost_matrix_quadratic_directed, if_pos ⟨hu, hv⟩,
    foldl_add_if_map (fun u2 => 0 < A_P u u2)
      (fun u2 => max 0 (A_P u u2 - bestOut A_curr N v)),
    foldl_add_if_map (fun u2 => 0 < A_P u2 u)
      (fun u2 => max 0 (A_P u2 u - bestIn A_curr N v)),
    zero_add, zero_add, map_range_sum, map_range_sum]

theorem quad_term_u (A : Mat) (u : ℕ) (x : ℤ) (hx : 0 ≤ x) :
    (if 0 < A u u then max 0 (A u u - x) else 0) = max 0 (A u u - x) := by
  split_ifs with h
  · rfl
  · rw [max_eq_left (by omega)]

/-- Diagonal entries of the quadratic matrix on host = pattern: only the
self-loop shortfalls survive. -/
theorem quad_diag (A : Mat) {N u : ℕ} (hu : u < N) :
    build_cost_matrix_quadratic_directed A A N N u u
      = max 0 (A u u - bestOut A N u) + max 0 (A u u - bestIn A N u) := by
  rw [quad_eq_sum A A hu hu]
  congr 1
  · rw [Finset.sum_eq_single_of_mem u (Finset.mem_range.mpr hu)]
    · exact quad_term_u A u _ (bestOut_nonneg A N u)
    · intro b hb hbne
      split_ifs with h
      · rw [max_eq_left (by have := bestOut_ge A (Finset.mem_range.mp hb) hbne; omega)]
      · rfl
  · rw [Finset.sum_eq_single_of_mem u (Finset.mem_range.mpr hu)]
    · exact quad_term_u A u _ (bestIn_nonneg A N u)
    · intro b hb hbne
      split_ifs with h
      · rw [max_eq_left (by have := bestIn_ge A (Finset.mem_range.mp hb) hbne; omega)]
      · rfl

/-- Lower bound on off-diagonal entries of the quadratic matrix on
host = pattern: at least the self-loop shortfall plus the shortfall of the
largest ordinary need. -/
theorem quad_lb (A : Mat) {N u v : ℕ} (hu : u < N) (hv : v < N) :
    max 0 (A u u - bestOut A N v) + max 0 (bestOut A N u - bestOut A N v)
      + (max 0 (A u u - bestIn A N v) + max 0 (bestIn A N u - bestIn A N v))
      ≤ build_cost_matrix_quadratic_directed A A N N u v := by
  rw [quad_eq_sum A A hu hv]
  have hnnO : ∀ i ∈ Finset.range N,
      0 ≤ (if 0 < A u i then max 0 (A u i - bestOut A N v) else 0) := by
    intro i _
    split_ifs
    · exact le_max_left _ _
    · exact le_refl 0
  have hnnI : ∀ i ∈ Finset.range N,
      0 ≤ (if 0 < A i u then max 0 (A i u - bestIn A N v) else 0) := by
    intro i _
    split_ifs
    · exact le_max_left _ _
    · exact le_refl 0
  have hout : max 0 (A u u - bestOut A N v) + max 0 (bestOut A N u - bestOut A N v)
      ≤ ∑ u2 ∈ Finset.range N,
          if 0 < A u u2 then max 0 (A u u2 - bestOut A N v) else 0 := by
    rcases le_or_lt (bestOut A N u) (bestOut A N v) with h1 | h1
    · have hz : max 0 (bestOut A N u - bestOut A N v) = 0 := max_eq_left (by omega)
      rw [hz, add_zero]
      have hs := Finset.single_le_sum hnnO (Finset.mem_range.mpr hu)
      rwa [quad_term_u A u _ (bestOut_nonneg A N v)] at hs
    · have hpos : 0 < bestOut A N u := lt_of_le_of_lt (bestOut_nonneg A N v) h1
      rcases bestOut_attained A N u with h0 | ⟨u2, hu2, hne, hval⟩
      · omega
      · have hsub : ({u, u2} : Finset ℕ) ⊆ Finset.range N := by
          intro a ha
          rcases Finset.mem_insert.mp ha with rfl | ha
          · exact Finset.mem_range.mpr hu
          · rw [Finset.mem_singleton.mp ha]
            exact Finset.mem_range.mpr hu2
        have hne' : u ≠ u2 := fun hc => hne (hc ▸ rfl)
        have hpair := Finset.sum_le_sum_of_subset_of_nonneg hsub
          (fun i hi _ => hnnO i hi)
        rw [Finset.sum_pair hne'] at hpair
        refine le_trans (le_of_eq ?_) hpair
        rw [quad_term_u A u _ (bestOut_nonneg A N v)]
        congr 1
        rw [if_pos (by omega : 0 < A u u2), hval]
  have hin : max 0 (A u u - bestIn A N v) + max 0 (bestIn A N u - bestIn A N v)
      ≤ ∑ u2 ∈ Finset.range N,
          if 0 < A u2 u then max 0 (A u2 u - bestIn A N v) else 0 := by
    rcases le_or_lt (bestIn A N u) (bestIn A N v) with h1 | h1
    · have hz : max 0 (bestIn A N u - bestIn A N v) = 0 := max_eq_left (by omega)
      rw [hz, add_zero]
      have hs := Finset.single_le_sum hnnI (Finset.mem_range.mpr hu)
      rwa [quad_term_u A u _ (bestIn_nonneg A N v)] at hs
    · have hpos : 0 < bestIn A N u := lt_of_le_of_lt (bestIn_nonneg A N v) h1
      rcases bestIn_attained A N u with h0 | ⟨u2, hu2, hne, hval⟩
      · omega
      · have hsub : ({u, u2} : Finset ℕ) ⊆ Finset.range N := by
          intro a ha
          rcases Finset.mem_insert.mp ha with rfl | ha
          · exact Finset.mem_range.mpr hu
          · rw [Finset.mem_singleton.mp ha]
            exact Finset.mem_range.mpr hu2
        have hne' : u ≠ u2 := fun hc => hne (hc ▸ rfl)
        have hpair := Finset.sum_le_sum_of_subset_of_nonneg hsub
          (fun i hi _ => hnnI i hi)
        rw [Finset.sum_pair hne'] at hpair
        refine le_trans (le_of_eq ?_) hpair
        rw [quad_term_u A u _ (bestIn_nonneg A N v)]
        congr 1
        rw [if_pos (by omega : 0 < A u2 u), hval]
  exact add_le_add hout hin

theorem build_cost_matrix_directed_nonneg (Pdeg Gdeg : ℕ → ℤ) (k N : ℕ) :
    ∀ u v, 0 ≤ build_cost_matrix_directed Pdeg Gdeg k N u v := by
  intro u v
  rw [build_cost_matrix_directed]
  split_ifs
  · exact abs_nonneg _
  · exact le_refl 0

/-- On host = pattern the identity assignment minimises the quadratic
cost matrix over all permutations. -/
theorem quad_identity_min (A : Mat) (N : ℕ) (σ : List ℕ)
    (hσ : σ.Perm (List.range N)) :
    assignmentCost (build_cost_matrix_quadratic_directed A A N N) N (List.range N)
      ≤ assignmentCost (build_cost_matrix_quadratic_directed A A N N) N σ := by
  rw [assignmentCost_eq_sum, assignmentCost_eq_sum]
  have hσlen : σ.length = N := by rw [hσ.length_eq, List.length_range]
  have hmem : ∀ u, u < N → mGet σ u < N := by
    intro u hu
    have h1 : mGet σ u ∈ σ := by
      rw [mGet, List.getD_eq_getElem σ 0 (by omega)]
      exact List.getElem_mem _
    exact List.mem_range.mp (hσ.mem_iff.mp h1)
  have hL : ∑ u ∈ Finset.range N,
      build_cost_matrix_quadratic_directed A A N N u (mGet (List.range N) u)
      = ∑ u ∈ Finset.range N,
          (max 0 (A u u - bestOut A N u) + max 0 (A u u - bestIn A N u)) := by
    apply Finset.sum_congr rfl
    intro u hu
    rw [Finset.mem_range] at hu
    rw [mGet_range hu, quad_diag A hu]
  rw [hL]
  have hR : ∑ u ∈ Finset.range N,
      (max 0 (A u u - bestOut A N (mGet σ u))
        + max 0 (bestOut A N u - bestOut A N (mGet σ u))
        + (max 0 (A u u - bestIn A N (mGet σ u))
        + max 0 (bestIn A N u - bestIn A N (mGet σ u))))
      ≤ ∑ u ∈ Finset.range N,
          build_cost_matrix_quadratic_directed A A N N u (mGet σ u) := by
    apply Finset.sum_le_sum
    intro u hu
    rw [Finset.mem_range] at hu
    exact quad_lb A hu (hmem u hu)
  refine le_trans ?_ hR
  rw [Finset.sum_add_distrib, Finset.sum_add_distrib]
  exact add_le_add (monge_sum (fun u => A u u) (bestOut A N) N σ hσ)
    (monge_sum (fun u => A u u) (bestIn A N) N σ hσ)

theorem find_minimal_extension_v3_directed_self (N : ℕ) (A : Mat) :
    find_minimal_extension_v3_directed A A N N 1 = .ok (A, 0) := by
  rw [find_minimal_extension_v3_directed]
  rw [show (1 : ℕ) = 0 + 1 from rfl]
  simp only [runDAux]
  by_cases hg : N ≤ 3 ∧ N ≤ 10
  · rw [if_pos hg, exhaustiveSelect_self]
    show runDAux A N N (calculate_total_degrees A N)
        (apply_extension_directed A A N (List.range N))
        (0 + calculate_extension_cost_directed A A N (List.range N))
        ((List.range N).toFinset :: []) 0 = .ok (A, 0)
    rw [apply_extension_directed_self A (le_refl N),
      calculate_extension_cost_directed_self A (le_refl N)]
    simp [runDAux]
  · rw [if_neg hg]
    have hlsa : linear_sum_assignment
        (if N ≤ 4 then build_cost_matrix_quadratic_directed A A N N
         else build_cost_matrix_directed (calculate_total_degrees A N)
            (calculate_total_degrees A N) N N) N = List.range N := by
      split_ifs with h4
      · apply lsa_eq_range
        intro σ hσ
        exact not_lt.mpr (quad_identity_min A N σ ((mem_permsI _ σ).mp hσ))
      · apply lsa_eq_range_of_nonneg_diag_zero
        · exact build_cost_matrix_directed_nonneg _ _ N N
        · intro i hi
          rw [build_cost_matrix_directed, if_pos ⟨hi, hi⟩, sub_self, abs_zero]
    have hloop : jLoopD
        (if N ≤ 4 then build_cost_matrix_quadratic_directed A A N N
         else build_cost_matrix_directed (calculate_total_degrees A N)
            (calculate_total_degrees A N) N N) N N [] 1000 1
        = some (List.range N) := by
      rw [jLoopD_1000, solver_directed_j1, hlsa]
      exact congrArg some (List.take_of_length_le (le_of_eq (List.length_range N)))
    rw [hloop]
    show runDAux A N N (calculate_total_degrees A N)
        (apply_extension_directed A A N (List.range N))
        (0 + calculate_extension_cost_directed A A N (List.range N))
        ((List.range N).toFinset :: []) 0 = .ok (A, 0)
    rw [apply_extension_directed_self A (le_refl N),
      calculate_extension_cost_directed_self A (le_refl N)]
    simp [runDAux]

/-! ## Correctness of the exhaustive search -/

theorem innerFold_acc (A A_P : Mat) (k : ℕ) :
    ∀ (l : List (List ℕ)) (a : List ℕ × ℤ),
      ∃ pc, l.foldl (bestStep A A_P k) (some a) = some pc
        ∧ pc.2 ≤ a.2
        ∧ (pc = a ∨ (pc.1 ∈ l ∧ pc.2 = calculate_extension_cost_directed A A_P k pc.1))
        ∧ ∀ p ∈ l, pc.2 ≤ calculate_extension_cost_directed A A_P k p := by
  intro l
  induction l with
  | nil =>
    intro a
    exact ⟨a, rfl, le_refl _, Or.inl rfl, by simp⟩
  | cons p t ih =>
    intro a
    simp only [List.foldl_cons, bestStep]
    by_cases hc : calculate_extension_cost_directed A A_P k p < a.2
    · rw [if_pos hc]
      rcases ih (p, calculate_extension_cost_directed A A_P k p) with
        ⟨pc, hfold, hle, hfrom, hall⟩
      refine ⟨pc, hfold, le_trans hle (le_of_lt hc), ?_, ?_⟩
      · rcases hfrom with rfl | ⟨hmem, hval⟩
        · exact Or.inr ⟨List.mem_cons_self p t, rfl⟩
        · exact Or.inr ⟨List.mem_cons_of_mem p hmem, hval⟩
      · intro q hq
        rcases List.mem_cons.mp hq with rfl | hqt
        · exact hle
        · exact hall q hqt
    · rw [if_neg hc]
      rcases ih a with ⟨pc, hfold, hle, hfrom, hall⟩
      refine ⟨pc, hfold, hle, ?_, ?_⟩
      · rcases hfrom with rfl | ⟨hmem, hval⟩
        · exact Or.inl rfl
        · exact Or.inr ⟨List.mem_cons_of_mem p hmem, hval⟩
      · intro q hq
        rcases List.mem_cons.mp hq with rfl | hqt
        · omega
        · exact hall q hqt

theorem innerFold_cons (A A_P : Mat) (k : ℕ) (p : List ℕ) (t : List (List ℕ)) :
    ∃ pc, (p :: t).foldl (bestStep A A_P k) none = some pc
      ∧ pc.1 ∈ p :: t
      ∧ pc.2 = calculate_extension_cost_directed A A_P k pc.1
      ∧ ∀ q ∈ p :: t, pc.2 ≤ calculate_extension_cost_directed A A_P k q := by
  simp only [List.foldl_cons, bestStep]
  rcases innerFold_acc A A_P k t (p, calculate_extension_cost_directed A A_P k p)
    with ⟨pc, hfold, hle, hfrom, hall⟩
  refine ⟨pc, hfold, ?_, ?_, ?_⟩
  · rcases hfrom with rfl | ⟨hmem, _⟩
    · exact List.mem_cons_self p t
    · exact List.mem_cons_of_mem p hmem
  · rcases hfrom with rfl | ⟨_, hval⟩
    · rfl
    · exact hval
  · intro q hq
    rcases List.mem_cons.mp hq with rfl | hqt
    · exact hle
    · exact hall q hqt

theorem outerFold_spec (A A_P : Mat) (k : ℕ) (used : List (Finset ℕ)) :
    ∀ (sl : List (List ℕ)) (acc : Option (List ℕ × ℤ)),
      (sl.foldl (fun best s =>
          if s.toFinset ∈ used then best
          else (permsI s).foldl (bestStep A A_P k) best) acc = none
        ↔ acc = none ∧ ∀ s ∈ sl, s.toFinset ∈ used)
      ∧ ∀ pc, sl.foldl (fun best s =>
          if s.toFinset ∈ used then best
          else (permsI s).foldl (bestStep A A_P k) best) acc = some pc →
          (acc = some pc ∨ ∃ s ∈ sl, s.toFinset ∉ used ∧ pc.1 ∈ permsI s
              ∧ pc.2 = calculate_extension_cost_directed A A_P k pc.1)
          ∧ (∀ a, acc = some a → pc.2 ≤ a.2)
          ∧ ∀ s ∈ sl, s.toFinset ∉ used →
              ∀ p ∈ permsI s, pc.2 ≤ calculate_extension_cost_directed A A_P k p := by
  intro sl
  induction sl with
  | nil =>
    intro acc
    constructor
    · simp
    · intro pc h
      simp only [List.foldl_nil] at h
      exact ⟨Or.inl h, fun a ha => by rw [h] at ha; cases ha; exact le_refl _,
        by simp⟩
  | cons s t ih =>
    intro acc
    by_cases hused : s.toFinset ∈ used
    · simp only [List.foldl_cons, if_pos hused]
      constructor
      · rw [(ih acc).1]
        constructor
        · rintro ⟨h1, h2⟩
          exact ⟨h1, fun s' hs' => by
            rcases List.mem_cons.mp hs' with rfl | hst
            · exact hused
            · exact h2 s' hst⟩
        · rintro ⟨h1, h2⟩
          exact ⟨h1, fun s' hs' => h2 s' (List.mem_cons_of_mem s hs')⟩
      · intro pc h
        rcases (ih acc).2 pc h with ⟨hfrom, hacc, hall⟩
        refine ⟨?_, hacc, ?_⟩
        · rcases hfrom with h1 | ⟨s', hs', hsu, hmem, hval⟩
          · exact Or.inl h1
          · exact Or.inr ⟨s', List.mem_cons_of_mem s hs', hsu, hmem, hval⟩
        · intro s' hs' hsu p hp
          rcases List.mem_cons.mp hs' with rfl | hst
          · exact absurd hused hsu
          · exact hall s' hst hsu p hp
    · simp only [List.foldl_cons, if_neg hused]
      cases acc with
      | none =>
        rcases permsI_cons s with ⟨tp, htp⟩
        rw [htp]
        rcases innerFold_cons A A_P k s tp with ⟨pc0, hfold, hmem, hval, hall⟩
        rw [hfold]
        constructor
        · constructor
          · intro hnone
            rcases ((ih (some pc0)).1.mp hnone) with ⟨hcon, _⟩
            exact absurd hcon (by simp)
          · rintro ⟨_, h2⟩
            exact absurd (h2 s (List.mem_cons_self s t)) hused
        · intro pc h
          rcases (ih (some pc0)).2 pc h with ⟨hfrom, hacc, halls⟩
          have hpcle : pc.2 ≤ pc0.2 := hacc pc0 rfl
          refine ⟨?_, ?_, ?_⟩
          · rcases hfrom with h1 | ⟨s', hs', hsu, hmem', hval'⟩
            · cases h1
              exact Or.inr ⟨s, List.mem_cons_self s t, hused, by rw [← htp] at hmem; exact hmem, hval⟩
            · exact Or.inr ⟨s', List.mem_cons_of_mem s hs', hsu, hmem', hval'⟩
          · intro a ha
            cases ha
          · intro s' hs' hsu p hp
            rcases List.mem_cons.mp hs' with rfl | hst
            · refine le_trans hpcle ?_
              rw [htp] at hp
              exact hall p hp
            · exact halls s' hst hsu p hp
      | some a =>
        rcases innerFold_acc A A_P k (permsI s) a with ⟨pc0, hfold, hle, hfrom0, hall⟩
        rw [hfold]
        constructor
        · constructor
          · intro hnone
            rcases ((ih (some pc0)).1.mp hnone) with ⟨hcon, _⟩
            exact absurd hcon (by simp)
          · rintro ⟨hcon, _⟩
            exact absurd hcon (by simp)
        · intro pc h
          rcases (ih (some pc0)).2 pc h with ⟨hfrom, hacc, halls⟩
          have hpcle : pc.2 ≤ pc0.2 := hacc pc0 rfl
          refine ⟨?_, ?_, ?_⟩
          · rcases hfrom with h1 | ⟨s', hs', hsu, hmem', hval'⟩
            · cases h1
              rcases hfrom0 with rfl | ⟨hmem, hval⟩
              · exact Or.inl rfl
              · exact Or.inr ⟨s, List.mem_cons_self s t, hused, hmem, hval⟩
            · exact Or.inr ⟨s', List.mem_cons_of_mem s hs', hsu, hmem', hval'⟩
          · intro a' ha'
            cases ha'
            exact le_trans hpcle hle
          · intro s' hs' hsu p hp
            rcases List.mem_cons.mp hs' with rfl | hst
            · exact le_trans hpcle (hall p hp)
            · exact halls s' hst hsu p hp

theorem exhaustiveSelect_none_iff (A A_P : Mat) (N k : ℕ)
    (used : List (Finset ℕ)) :
    exhaustiveSelect A A_P N k used = none
      ↔ ∀ s : List ℕ, s.Sublist (List.range N) → s.length = k →
          s.toFinset ∈ used := by
  rw [exhaustiveSelect, (outerFold_spec A A_P k used (combs k (List.range N)) none).1]
  constructor
  · rintro ⟨_, h⟩ s hsub hlen
    exact h s (mem_combs.mpr ⟨hsub, hlen⟩)
  · intro h
    exact ⟨rfl, fun s hs => h s (mem_combs.mp hs).1 (mem_combs.mp hs).2⟩

/-- An eligible mapping: duplicate-free, of length `k`, with entries below
`N` and a vertex set not in the registry. -/
theorem perm_filter_range {p : List ℕ} {N : ℕ} (hnd : p.Nodup)
    (hlt : ∀ x ∈ p, x < N) :
    p.Perm ((List.range N).filter (fun x => decide (x ∈ p))) := by
  apply List.perm_of_nodup_nodup_toFinset_eq hnd
    ((List.nodup_range N).filter _)
  ext x
  simp only [List.mem_toFinset, List.mem_filter, List.mem_range,
    decide_eq_true_eq]
  exact ⟨fun hx => ⟨hlt x hx, hx⟩, fun hx => hx.2⟩

theorem exhaustiveSelect_some_spec (A A_P : Mat) (N k : ℕ)
    (used : List (Finset ℕ)) (m : List ℕ) (c : ℤ)
    (h : exhaustiveSelect A A_P N k used = some (m, c)) :
    m.Nodup ∧ m.length = k ∧ (∀ x ∈ m, x < N) ∧ m.toFinset ∉ used
      ∧ c = calculate_extension_cost_directed A A_P k m
      ∧ ∀ p : List ℕ, p.Nodup → p.length = k → (∀ x ∈ p, x < N) →
          p.toFinset ∉ used →
          c ≤ calculate_extension_cost_directed A A_P k p := by
  rw [exhaustiveSelect] at h
  rcases (outerFold_spec A A_P k used (combs k (List.range N)) none).2 _ h with
    ⟨hfrom, _, hall⟩
  rcases hfrom with hcon | ⟨s, hs, hsu, hmem, hval⟩
  · cases hcon
  rcases mem_combs.mp hs with ⟨hsub, hlen⟩
  have hsnd : s.Nodup := hsub.nodup (List.nodup_range N)
  have hperm : m.Perm s := (mem_permsI s m).mp hmem
  have hmnd : m.Nodup := hperm.symm.nodup hsnd
  have hmlen : m.length = k := by rw [hperm.length_eq, hlen]
  have hmlt : ∀ x ∈ m, x < N := by
    intro x hx
    have : x ∈ List.range N := hsub.subset (hperm.subset hx)
    exact List.mem_range.mp this
  have hmfs : m.toFinset = s.toFinset := List.toFinset_eq_of_perm _ _ hperm
  refine ⟨hmnd, hmlen, hmlt, by rw [hmfs]; exact hsu, hval, ?_⟩
  intro p hpnd hplen hplt hpu
  have hpperm := perm_filter_range hpnd hplt
  set s' := (List.range N).filter (fun x => decide (x ∈ p)) with hs'
  have hs'sub : s'.Sublist (List.range N) := List.filter_sublist _
  have hs'len : s'.length = k := by rw [← hpperm.length_eq, hplen]
  have hs'fs : s'.toFinset = p.toFinset := List.toFinset_eq_of_perm _ _ hpperm.symm
  have hs'mem : s' ∈ combs k (List.range N) := mem_combs.mpr ⟨hs'sub, hs'len⟩
  have hs'u : s'.toFinset ∉ used := by rw [hs'fs]; exact hpu
  exact hall s' hs'mem hs'u p ((mem_permsI s' p).mpr hpperm)

/-! ## Exhausting the distinct vertex subsets -/

theorem runDAux_error_of_few_subsets (A_P : Mat) (N k : ℕ) (Pdeg : ℕ → ℤ)
    (hk : k ≤ 3) (hN : N ≤ 10) :
    ∀ (n : ℕ) (A : Mat) (total : ℤ) (used : List (Finset ℕ)),
      ((Finset.powersetCard k (Finset.range N)).filter (fun s => s ∉ used)).card < n →
      runDAux A_P N k Pdeg A total used n
        = .error "Unable to find sufficient unique mappings" := by
  intro n
  induction n with
  | zero => intro A total used hcard; omega
  | succ n ih =>
    intro A total used hcard
    simp only [runDAux, if_pos (⟨hk, hN⟩ : k ≤ 3 ∧ N ≤ 10)]
    cases hsel : exhaustiveSelect A A_P N k used with
    | none => rfl
    | some mc =>
      rcases exhaustiveSelect_some_spec A A_P N k used mc.1 mc.2 (by rw [hsel]) with
        ⟨hnd, hlen, hlt, hu, _, _⟩
      have hmemF : mc.1.toFinset
          ∈ (Finset.powersetCard k (Finset.range N)).filter (fun s => s ∉ used) := by
        rw [Finset.mem_filter, Finset.mem_powersetCard]
        refine ⟨⟨?_, ?_⟩, hu⟩
        · intro x hx
          rw [List.mem_toFinset] at hx
          exact Finset.mem_range.mpr (hlt x hx)
        · rw [List.toFinset_card_of_nodup hnd, hlen]
      have hset : (Finset.powersetCard k (Finset.range N)).filter
            (fun s => s ∉ (mc.1.toFinset :: used))
          = ((Finset.powersetCard k (Finset.range N)).filter
              (fun s => s ∉ used)).erase mc.1.toFinset := by
        ext s
        simp only [Finset.mem_filter, Finset.mem_erase, List.mem_cons]
        constructor
        · rintro ⟨hp, hns⟩
          exact ⟨fun hc => hns (Or.inl hc), hp, fun hc => hns (Or.inr hc)⟩
        · rintro ⟨hne, hp, hns⟩
          exact ⟨hp, fun hc => hc.elim hne hns⟩
      apply ih
      rw [hset, Finset.card_erase_of_mem hmemF]
      have hpos : 0 < ((Finset.powersetCard k (Finset.range N)).filter
          (fun s => s ∉ used)).card := Finset.card_pos.mpr ⟨_, hmemF⟩
      omega

/-- The total number of `k`-subsets of the `N` vertices. -/
theorem card_subsets (N k : ℕ) :
    (Finset.powersetCard k (Finset.range N)).card = N.choose k := by
  rw [Finset.card_powersetCard, Finset.card_range]


/-! ## Claim C6: insufficiency is driven by used vertex sets, not by N < n·k -/

/-- C6 (counterexample): with a 3-vertex host, a 2-vertex pattern and
`n = 2` requested copies we have `N < n·k`, yet the directed run completes
and returns a result (total cost 2) instead of raising the
insufficient-mappings failure: distinctness of the used vertex sets does
not require disjointness. -/
theorem insufficient_mappings_counterexample :
    3 < 2 * 2 ∧
    (find_minimal_extension_v3_directed zeroMat (ofList [[0, 1], [0, 0]]) 3 2 2).toOption.map
        Prod.snd = some 2 := by
  constructor
  · decide
  · decide

/-- C6 (amended): in the exhaustive regime (`k ≤ 3` and `N ≤ 10`) the
directed run raises the insufficient-mappings error exactly when the
distinct `k`-element vertex subsets run out; in particular whenever the
requested number of copies exceeds `C(N, k)`. -/
theorem insufficient_mappings_error (A_G A_P : Mat) (N k n : ℕ)
    (hk : k ≤ 3) (hN : N ≤ 10) (hn : N.choose k < n) :
    find_minimal_extension_v3_directed A_G A_P N k n
      = .error "Unable to find sufficient unique mappings" := by
  rw [find_minimal_extension_v3_directed]
  apply runDAux_error_of_few_subsets A_P N k _ hk hN
  have hfilter : (Finset.powersetCard k (Finset.range N)).filter
      (fun s => s ∉ ([] : List (Finset ℕ)))
      = Finset.powersetCard k (Finset.range N) := by
    apply Finset.filter_true_of_mem
    intro s _
    simp
  rw [hfilter, card_subsets]
  exact hn

theorem insufficient_mappings_error_witness :
    (1 ≤ 3 ∧ 1 ≤ 10 ∧ Nat.choose 1 1 < 2) ∧
    find_minimal_extension_v3_directed zeroMat zeroMat 1 1 2
      = .error "Unable to find sufficient unique mappings" :=
  ⟨by decide, insufficient_mappings_error zeroMat zeroMat 1 1 2
    (by decide) (by decide) (by decide)⟩

/-! ## Claim C2: the rank-exhausted fallback of the Murty solver -/

/-- C2 (counterexample): on the 1 × 1 cost matrix `[[5]]` only one
distinct assignment exists, yet the rank-2 request returns the very same
mapping as the rank-1 request instead of reporting the insufficiency to
its caller. -/
theorem solver_directed_rank_exhausted_counterexample :
    k_best_assignment_solver_directed (ofList [[5]]) 1 2 (some 1)
      = k_best_assignment_solver_directed (ofList [[5]]) 1 1 (some 1) := by
  decide

/-- C2 (amended): when Murty enumeration finds fewer than `j` solutions
within the cap, the solver silently falls back: it returns the mapping of
the last solution found, or `range k` when no solution exists at all. -/
theorem solver_directed_rank_exhausted_fallback (C : Mat) (N k j : ℕ)
    (hj : j ≠ 1)
    (hshort : (compute_k_best C N k (min (j + 10) 100)).length < j) :
    k_best_assignment_solver_directed C N j (some k)
      = (if hne : compute_k_best C N k (min (j + 10) 100) ≠ [] then
           ((compute_k_best C N k (min (j + 10) 100)).getLast hne).2
         else List.range k) := by
  rw [k_best_assignment_solver_directed]
  simp only [Option.getD_some]
  rw [if_neg hj]
  have hnone : get_solution (compute_k_best C N k (min (j + 10) 100)) j = none := by
    rw [get_solution, if_neg]
    intro hcon
    omega
  rw [hnone]

theorem solver_directed_rank_exhausted_fallback_witness :
    (2 ≠ 1 ∧ (compute_k_best (ofList [[5]]) 1 1 (min (2 + 10) 100)).length < 2) ∧
    k_best_assignment_solver_directed (ofList [[5]]) 1 2 (some 1)
      = (if hne : compute_k_best (ofList [[5]]) 1 1 (min (2 + 10) 100) ≠ [] then
           ((compute_k_best (ofList [[5]]) 1 1 (min (2 + 10) 100)).getLast hne).2
         else List.range 1) :=
  ⟨⟨by decide, by decide⟩,
   solver_directed_rank_exhausted_fallback (ofList [[5]]) 1 1 2
     (by decide) (by decide)⟩


/-! ## Claim C5: the exhaustive branch selects a global minimum -/

/-- C5: whenever `k ≤ 3` and `N ≤ 10`, an iteration of the directed run
selects (via `exhaustiveSelect`) an injective in-range mapping with an
unused vertex set whose exact extension cost is globally minimal among
all such mappings, and recurses on it; when no unused `k`-subset remains
the run fails with the insufficient-mappings error. -/
theorem exhaustive_branch_minimal (A A_P : Mat) (N k : ℕ) (Pdeg : ℕ → ℤ)
    (total : ℤ) (used : List (Finset ℕ)) (n : ℕ) (hk : k ≤ 3) (hN : N ≤ 10) :
    exhaustiveIterationSpec A A_P N k Pdeg total used n := by
  constructor
  · intro m c hsel
    obtain ⟨hnd, hlen, hlt, hu, hc, hmin⟩ :=
      exhaustiveSelect_some_spec A A_P N k used m c hsel
    refine ⟨⟨hnd, hlen, hlt, hu⟩, hc, hmin, ?_⟩
    simp only [runDAux, if_pos (⟨hk, hN⟩ : k ≤ 3 ∧ N ≤ 10), hsel]
    rw [hc]
  · intro hnone
    simp only [runDAux, if_pos (⟨hk, hN⟩ : k ≤ 3 ∧ N ≤ 10), hnone]

theorem exhaustive_branch_minimal_witness :
    (1 ≤ 3 ∧ 1 ≤ 10) ∧
    exhaustiveIterationSpec zeroMat zeroMat 1 1 (fun _ => 0) 0 [] 0 :=
  ⟨by decide, exhaustive_branch_minimal zeroMat zeroMat 1 1 (fun _ => 0) 0 [] 0
    (by decide) (by decide)⟩

/-! ## Claim C3: no edge is ever removed -/

/-- C3: `apply_extension` and `apply_extension_directed` return matrices
element-wise `≥` their input, and consequently the final matrix of a
completed run (undirected or directed) is element-wise `≥` the input
host matrix. -/
theorem extension_monotone (A A_P : Mat) (N k n : ℕ) (m : List ℕ)
    (BU BD : Mat) (cU cD : ℤ)
    (hU : find_minimal_extension_v3 A A_P N k n = .ok (BU, cU))
    (hD : find_minimal_extension_v3_directed A A_P N k n = .ok (BD, cD)) :
    matLe A (apply_extension A A_P k m)
    ∧ matLe A (apply_extension_directed A A_P k m)
    ∧ matLe A BU ∧ matLe A BD :=
  ⟨apply_extension_le A A_P k m, apply_extension_directed_le A A_P k m,
   runUAux_le A_P N k (calculate_degrees A_P k) n A 0 [] BU cU hU,
   runDAux_le A_P N k (calculate_total_degrees A_P k) n A 0 [] BD cD hD⟩

theorem extension_monotone_witness :
    (find_minimal_extension_v3 zeroMat zeroMat 1 1 1 = .ok (zeroMat, 0)
      ∧ find_minimal_extension_v3_directed zeroMat zeroMat 1 1 1 = .ok (zeroMat, 0))
    ∧ (matLe zeroMat (apply_extension zeroMat zeroMat 1 [0])
        ∧ matLe zeroMat (apply_extension_directed zeroMat zeroMat 1 [0])
        ∧ matLe zeroMat zeroMat ∧ matLe zeroMat zeroMat) :=
  ⟨⟨find_minimal_extension_v3_self 1 zeroMat,
    find_minimal_extension_v3_directed_self 1 zeroMat⟩,
   extension_monotone zeroMat zeroMat 1 1 1 [0] zeroMat zeroMat 0 0
     (find_minimal_extension_v3_self 1 zeroMat)
     (find_minimal_extension_v3_directed_self 1 zeroMat)⟩

/-! ## Claim C4: the extension-cost formulas -/

/-- C4: the undirected extension cost is the sum of shortfalls
`max 0 (P[u][v] − A[m[u]][m[v]])` over the upper-triangle pairs `u ≤ v`,
and the directed extension cost is the same sum over all `k²` ordered
pairs. -/
theorem extension_cost_formula (A_curr A_P : Mat) (k : ℕ) (m : List ℕ) :
    calculate_extension_cost A_curr A_P k m
      = ∑ p ∈ (Finset.range k ×ˢ Finset.range k).filter (fun p => p.1 ≤ p.2),
          max 0 (A_P p.1 p.2 - A_curr (mGet m p.1) (mGet m p.2))
    ∧ calculate_extension_cost_directed A_curr A_P k m
      = ∑ p ∈ Finset.range k ×ˢ Finset.range k,
          max 0 (A_P p.1 p.2 - A_curr (mGet m p.1) (mGet m p.2)) :=
  ⟨calculate_extension_cost_eq_sum A_curr A_P k m,
   calculate_extension_cost_directed_eq_sum A_curr A_P k m⟩

/-! ## Claim C7: the undirected update preserves symmetry -/

/-- C7: starting from a symmetric matrix, `apply_extension` returns a
symmetric matrix (each increment is mirrored when the endpoints differ),
so the final matrix of a completed undirected run is symmetric. -/
theorem undirected_symmetry_preserved (A A_P : Mat) (N k n : ℕ)
    (m : List ℕ) (B : Mat) (c : ℤ) (hA : matSymm A)
    (hrun : find_minimal_extension_v3 A A_P N k n = .ok (B, c)) :
    matSymm (apply_extension A A_P k m) ∧ matSymm B :=
  ⟨apply_extension_symm A A_P k m hA,
   runUAux_symm A_P N k (calculate_degrees A_P k) n A 0 [] B c hA hrun⟩

theorem undirected_symmetry_preserved_witness :
    (matSymm zeroMat
      ∧ find_minimal_extension_v3 zeroMat zeroMat 1 1 1 = .ok (zeroMat, 0))
    ∧ matSymm (apply_extension zeroMat zeroMat 1 [0]) ∧ matSymm zeroMat :=
  ⟨⟨fun _ _ => rfl, find_minimal_extension_v3_self 1 zeroMat⟩,
   undirected_symmetry_preserved zeroMat zeroMat 1 1 1 [0] zeroMat 0
     (fun _ _ => rfl) (find_minimal_extension_v3_self 1 zeroMat)⟩

/-! ## Claim C9: host equals pattern, one copy -/

/-- C9: running either variant with the host matrix equal to the pattern
matrix (`k = N`) and one requested copy returns total cost `0` and the
unchanged input matrix. -/
theorem pattern_equals_host_idempotent (N : ℕ) (A : Mat) :
    find_minimal_extension_v3 A A N N 1 = .ok (A, 0)
    ∧ find_minimal_extension_v3_directed A A N N 1 = .ok (A, 0) :=
  ⟨find_minimal_extension_v3_self N A,
   find_minimal_extension_v3_directed_self N A⟩


/-! ## Claim C10: inference of `k` from the first all-zero row -/

theorem find?_range'_first (p : ℕ → Bool) :
    ∀ (n s r : ℕ), s ≤ r → r < s + n → p r = true →
      (∀ i, s ≤ i → i < r → p i = false) →
      (List.range' s n).find? p = some r := by
  intro n
  induction n with
  | zero => intro s r hsr hrn _ _; omega
  | succ n ih =>
    intro s r hsr hrn hp hfirst
    rw [List.range'_succ]
    by_cases hs : s = r
    · subst hs
      exact List.find?_cons_of_pos _ hp
    · have hps : p s = false := hfirst s le_rfl (by omega)
      rw [List.find?_cons_of_neg _ (by simp [hps])]
      exact ih (s + 1) r (by omega) (by omega) hp
        (fun i h1 h2 => hfirst i (by omega) h2)

theorem inferK_eq_first_zero_row (C : Mat) (N r : ℕ) (hr : r < N)
    (hzero : ∀ j < N, C r j = 0)
    (hfirst : ∀ i < r, ∃ j, j < N ∧ C i j ≠ 0) :
    inferK C N = r := by
  rw [inferK]
  have h1 : (List.range N).find? (fun i => decide (∀ j < N, C i j = 0))
      = some r := by
    rw [List.range_eq_range']
    apply find?_range'_first _ N 0 r (by omega) (by omega)
    · simp only [decide_eq_true_eq]
      exact hzero
    · intro i _ hir
      simp only [decide_eq_false_iff_not]
      intro hall
      obtain ⟨j, hj, hne⟩ := hfirst i hir
      exact hne (hall j hj)
  rw [h1]
  rfl

theorem argminFirst_mem_aux (f : α → ℤ) :
    ∀ (l : List α) (b x : α),
      l.foldl (fun best y => match best with
        | none => some y
        | some c => if f y < f c then some y else best) (some b) = some x →
      x = b ∨ x ∈ l := by
  intro l
  induction l with
  | nil =>
    intro b x h
    exact Or.inl (Option.some.inj h).symm
  | cons a t ih =>
    intro b x h
    simp only [List.foldl_cons] at h
    by_cases hfa : f a < f b
    · rw [if_pos hfa] at h
      rcases ih a x h with h1 | h1
      · exact Or.inr (h1 ▸ List.mem_cons_self a t)
      · exact Or.inr (List.mem_cons_of_mem a h1)
    · rw [if_neg hfa] at h
      rcases ih b x h with h1 | h1
      · exact Or.inl h1
      · exact Or.inr (List.mem_cons_of_mem a h1)

theorem argminFirst_mem (f : α → ℤ) (l : List α) (x : α)
    (h : argminFirst f l = some x) : x ∈ l := by
  cases l with
  | nil => simp [argminFirst] at h
  | cons a t =>
    rw [argminFirst] at h
    simp only [List.foldl_cons] at h
    rcases argminFirst_mem_aux f t a x h with h1 | h1
    · exact h1 ▸ List.mem_cons_self a t
    · exact List.mem_cons_of_mem a h1

theorem lsa_perm (C : Mat) (N : ℕ) :
    (linear_sum_assignment C N).Perm (List.range N) := by
  rw [linear_sum_assignment]
  cases h : argminFirst (assignmentCost C N) (permsI (List.range N)) with
  | none =>
    simp only [Option.getD_none]
    exact List.Perm.refl _
  | some σ =>
    simp only [Option.getD_some]
    exact (mem_permsI _ σ).mp (argminFirst_mem _ _ _ h)

theorem lsa_length (C : Mat) (N : ℕ) :
    (linear_sum_assignment C N).length = N :=
  (lsa_perm C N).length_eq.trans (List.length_range N)

/-- C10: when the `k` argument is omitted, the number of real pattern rows
is inferred as the index of the first all-zero row of the cost matrix, so
both solvers behave exactly as if `k = r` had been passed, and the rank-1
mapping they return has only `r` entries — fewer than the actual number of
pattern vertices whenever that number exceeds `r`. -/
theorem inferred_k_zero_row (C : Mat) (N r : ℕ) (hr : r < N)
    (hzero : ∀ j < N, C r j = 0)
    (hfirst : ∀ i < r, ∃ j, j < N ∧ C i j ≠ 0) :
    inferK C N = r
    ∧ (∀ j, k_best_assignment_solver C N j none
          = k_best_assignment_solver C N j (some r)
        ∧ k_best_assignment_solver_directed C N j none
          = k_best_assignment_solver_directed C N j (some r))
    ∧ (k_best_assignment_solver C N 1 none).length = r
    ∧ (k_best_assignment_solver_directed C N 1 none).length = r := by
  have hik : inferK C N = r := inferK_eq_first_zero_row C N r hr hzero hfirst
  have heq : ∀ j, k_best_assignment_solver C N j none
      = k_best_assignment_solver C N j (some r)
      ∧ k_best_assignment_solver_directed C N j none
      = k_best_assignment_solver_directed C N j (some r) := by
    intro j
    constructor
    · rw [k_best_assignment_solver, k_best_assignment_solver,
        Option.getD_none, Option.getD_some, hik]
    · rw [k_best_assignment_solver_directed, k_best_assignment_solver_directed,
        Option.getD_none, Option.getD_some, hik]
  have hlen : ((linear_sum_assignment C N).take r).length = r := by
    rw [List.length_take, lsa_length]
    omega
  refine ⟨hik, heq, ?_, ?_⟩
  · rw [(heq 1).1, solver_j1, hlen]
  · rw [(heq 1).2, solver_directed_j1, hlen]

theorem inferred_k_zero_row_witness :
    (1 < 2 ∧ (∀ j < 2, ofList [[1, 1], [0, 0]] 1 j = 0)
      ∧ (∀ i < 1, ∃ j, j < 2 ∧ ofList [[1, 1], [0, 0]] i j ≠ 0)) ∧
    (inferK (ofList [[1, 1], [0, 0]]) 2 = 1
    ∧ (∀ j, k_best_assignment_solver (ofList [[1, 1], [0, 0]]) 2 j none
          = k_best_assignment_solver (ofList [[1, 1], [0, 0]]) 2 j (some 1)
        ∧ k_best_assignment_solver_directed (ofList [[1, 1], [0, 0]]) 2 j none
          = k_best_assignment_solver_directed (ofList [[1, 1], [0, 0]]) 2 j (some 1))
    ∧ (k_best_assignment_solver (ofList [[1, 1], [0, 0]]) 2 1 none).length = 1
    ∧ (k_best_assignment_solver_directed (ofList [[1, 1], [0, 0]]) 2 1 none).length
        = 1) :=
  ⟨⟨by decide, by decide, fun i hi => ⟨0, by omega, by
      interval_cases i
      decide⟩⟩,
   inferred_k_zero_row (ofList [[1, 1], [0, 0]]) 2 1 (by decide)
     (by decide)
     (fun i hi => ⟨0, by omega, by
        interval_cases i
        decide⟩)⟩


/-! ## Entry-sum accounting for the directed update -/

theorem updateMat_self (A : Mat) (i j : ℕ) (x : ℤ) :
    updateMat A i j x i j = x := by simp [updateMat]

theorem updateMat_entrySum (A : Mat) (p q : ℕ) (x : ℤ) (N : ℕ)
    (hp : p < N) (hq : q < N) :
    entrySum (updateMat A p q x) N = entrySum A N + (x - A p q) := by
  have hpoint : ∀ i j, updateMat A p q x i j
      = A i j + (if i = p ∧ j = q then x - A p q else 0) := by
    intro i j
    by_cases h : i = p ∧ j = q
    · rcases h with ⟨rfl, rfl⟩
      simp [updateMat]
    · rw [updateMat_other A p q i j x h, if_neg h, add_zero]
  rw [entrySum, entrySum]
  simp only [hpoint]
  rw [Finset.sum_congr rfl (fun i _ => Finset.sum_add_distrib),
    Finset.sum_add_distrib]
  congr 1
  have hinner : ∀ i, (∑ j ∈ Finset.range N,
      (if i = p ∧ j = q then x - A p q else 0))
      = (if i = p then x - A p q else 0) := by
    intro i
    by_cases hip : i = p
    · subst hip
      simp only [eq_self_iff_true, true_and, if_true]
      rw [Finset.sum_ite_eq' (Finset.range N) q (fun _ => x - A i q)]
      rw [if_pos (Finset.mem_range.mpr hq)]
    · simp [hip]
  rw [Finset.sum_congr rfl (fun i _ => hinner i)]
  rw [Finset.sum_ite_eq' (Finset.range N) p (fun _ => x - A p q)]
  rw [if_pos (Finset.mem_range.mpr hp)]

theorem applyStepDirected_other (A_P : Mat) (m : List ℕ) (A : Mat)
    (uv : ℕ × ℕ) (i j : ℕ) (h : ¬(i = mGet m uv.1 ∧ j = mGet m uv.2)) :
    applyStepDirected A_P m A uv i j = A i j := by
  rw [applyStepDirected]
  split_ifs with hw
  · exact updateMat_other A _ _ i j _ h
  · rfl

theorem applyStepDirected_entrySum (A_P : Mat) (m : List ℕ) (A : Mat)
    (uv : ℕ × ℕ) (N : ℕ) (h1 : mGet m uv.1 < N) (h2 : mGet m uv.2 < N) :
    entrySum (applyStepDirected A_P m A uv) N
      = entrySum A N + max 0 (A_P uv.1 uv.2 - A (mGet m uv.1) (mGet m uv.2)) := by
  rw [applyStepDirected]
  split_ifs with hw
  · rw [updateMat_entrySum A _ _ _ N h1 h2]
    ring
  · have h0 : max 0 (A_P uv.1 uv.2 - A (mGet m uv.1) (mGet m uv.2)) = 0 :=
      le_antisymm (not_lt.mp hw) (le_max_left _ _)
    rw [h0, add_zero]


theorem mGet_getElem (m : List ℕ) (u : ℕ) (hu : u < m.length) :
    mGet m u = m[u] := by
  rw [mGet, List.getD_eq_getElem]

theorem mGet_inj {m : List ℕ} (hnd : m.Nodup) {u v : ℕ}
    (hu : u < m.length) (hv : v < m.length) (h : mGet m u = mGet m v) :
    u = v := by
  rw [mGet_getElem m u hu, mGet_getElem m v hv] at h
  exact (List.Nodup.getElem_inj_iff hnd).mp h

theorem mGet_mem {m : List ℕ} {u : ℕ} (hu : u < m.length) : mGet m u ∈ m := by
  rw [mGet_getElem m u hu]
  exact List.getElem_mem hu

theorem allPairs_nodup (k : ℕ) : (allPairs k).Nodup := by
  have h : allPairs k = List.range k ×ˢ List.range k := rfl
  rw [h]
  exact (List.nodup_range k).product (List.nodup_range k)

theorem allPairs_map_pos_nodup (m : List ℕ) (k : ℕ) (hnd : m.Nodup)
    (hlen : m.length = k) :
    ((allPairs k).map (fun uv => (mGet m uv.1, mGet m uv.2))).Nodup := by
  apply List.Nodup.map_on ?_ (allPairs_nodup k)
  intro x hx y hy hxy
  have hx' := mem_allPairs hx
  have hy' := mem_allPairs hy
  have h1 : mGet m x.1 = mGet m y.1 := congrArg Prod.fst hxy
  have h2 : mGet m x.2 = mGet m y.2 := congrArg Prod.snd hxy
  have e1 : x.1 = y.1 :=
    mGet_inj hnd (by omega) (by omega) h1
  have e2 : x.2 = y.2 :=
    mGet_inj hnd (by omega) (by omega) h2
  exact Prod.ext_iff.mpr ⟨e1, e2⟩

theorem map_sum_flatMap_pairs (f : ℕ × ℕ → ℤ) (G : ℕ → List ℕ) :
    ∀ l : List ℕ,
      ((l.flatMap (fun u => (G u).map (fun v => (u, v)))).map f).sum
        = (l.map (fun u => ((G u).map (fun v => f (u, v))).sum)).sum := by
  intro l
  induction l with
  | nil => rfl
  | cons a t ih =>
    simp only [List.flatMap_cons, List.map_append, List.sum_append, ih,
      List.map_map, List.map_cons, List.sum_cons]
    rfl

theorem cost_directed_listsum (A A_P : Mat) (k : ℕ) (m : List ℕ) :
    calculate_extension_cost_directed A A_P k m
      = ((allPairs k).map (fun uv =>
          max 0 (A_P uv.1 uv.2 - A (mGet m uv.1) (mGet m uv.2)))).sum := by
  rw [calculate_extension_cost_directed,
    foldl_flatMap_pairs (fun u v => max 0 (A_P u v - A (mGet m u) (mGet m v)))
      (fun _ => List.range k) (List.range k) 0, zero_add, allPairs,
    map_sum_flatMap_pairs]

theorem foldl_applyStepDirected_entrySum (A_P : Mat) (m : List ℕ) (N : ℕ) :
    ∀ (L : List (ℕ × ℕ)) (A : Mat),
      ((L.map (fun uv => (mGet m uv.1, mGet m uv.2))).Nodup) →
      (∀ uv ∈ L, mGet m uv.1 < N ∧ mGet m uv.2 < N) →
      entrySum (L.foldl (applyStepDirected A_P m) A) N
        = entrySum A N
          + ((L.map (fun uv =>
              max 0 (A_P uv.1 uv.2 - A (mGet m uv.1) (mGet m uv.2)))).sum) := by
  intro L
  induction L with
  | nil =>
    intro A _ _
    simp
  | cons a t ih =>
    intro A hnd hin
    simp only [List.map_cons, List.nodup_cons] at hnd
    obtain ⟨hnotmem, hndt⟩ := hnd
    have ha := hin a (List.mem_cons_self a t)
    simp only [List.foldl_cons, List.map_cons, List.sum_cons]
    rw [ih (applyStepDirected A_P m A a) hndt
      (fun uv huv => hin uv (List.mem_cons_of_mem a huv))]
    rw [applyStepDirected_entrySum A_P m A a N ha.1 ha.2]
    have hpres : ∀ uv ∈ t,
        applyStepDirected A_P m A a (mGet m uv.1) (mGet m uv.2)
          = A (mGet m uv.1) (mGet m uv.2) := by
      intro uv huv
      apply applyStepDirected_other
      intro hcontra
      apply hnotmem
      rw [List.mem_map]
      exact ⟨uv, huv, by simp only [hcontra.1, hcontra.2]⟩
    have hmapeq : t.map (fun uv => max 0 (A_P uv.1 uv.2
          - applyStepDirected A_P m A a (mGet m uv.1) (mGet m uv.2)))
        = t.map (fun uv => max 0 (A_P uv.1 uv.2
          - A (mGet m uv.1) (mGet m uv.2))) :=
      List.map_congr_left (fun uv huv => by rw [hpres uv huv])
    rw [hmapeq]
    ring

theorem apply_extension_directed_entrySum (A A_P : Mat) (N k : ℕ)
    (m : List ℕ) (hnd : m.Nodup) (hlen : m.length = k)
    (hlt : ∀ x ∈ m, x < N) :
    entrySum (apply_extension_directed A A_P k m) N
      = entrySum A N + calculate_extension_cost_directed A A_P k m := by
  rw [apply_extension_directed, cost_directed_listsum]
  apply foldl_applyStepDirected_entrySum A_P m N (allPairs k) A
    (allPairs_map_pos_nodup m k hnd hlen)
  intro uv huv
  have h := mem_allPairs huv
  constructor
  · exact hlt _ (mGet_mem (by omega))
  · exact hlt _ (mGet_mem (by omega))


/-! ## Every mapping the Murty solver can return is well-formed -/

theorem take_goodMap {l : List ℕ} {N k : ℕ} (hperm : l.Perm (List.range N))
    (hk : k ≤ N) : goodMap N k (l.take k) := by
  have hnd : l.Nodup := hperm.nodup_iff.mpr (List.nodup_range N)
  refine ⟨hnd.sublist (List.take_sublist k l), ?_, ?_⟩
  · rw [List.length_take, hperm.length_eq, List.length_range]
    exact min_eq_left hk
  · intro x hx
    have hmem : x ∈ l := List.mem_of_mem_take hx
    exact List.mem_range.mp (hperm.mem_iff.mp hmem)

theorem solve_with_constraints_good (C : Mat) (N k : ℕ) (hk : k ≤ N)
    (inc exc : List (ℕ × ℕ)) (c : ℤ) (m : List ℕ)
    (h : solve_with_constraints C N k inc exc = some (c, m)) :
    goodMap N k m := by
  simp only [solve_with_constraints] at h
  split_ifs at h with hcond
  · injection h with h1
    have hm := congrArg Prod.snd h1
    simp only at hm
    rw [← hm]
    exact take_goodMap (lsa_perm _ N) hk

theorem foldl_nodeMin_mem : ∀ (xs : List KNode) (x : KNode),
    xs.foldl (fun b y => if nodeLt y b then y else b) x ∈ x :: xs := by
  intro xs
  induction xs with
  | nil => intro x; exact List.mem_cons_self x []
  | cons a t ih =>
    intro x
    simp only [List.foldl_cons]
    by_cases h : nodeLt a x = true
    · rw [if_pos h]
      rcases List.mem_cons.mp (ih a) with h1 | h1
      · rw [h1]; exact List.mem_cons_of_mem x (List.mem_cons_self a t)
      · exact List.mem_cons_of_mem x (List.mem_cons_of_mem a h1)
    · rw [if_neg h]
      rcases List.mem_cons.mp (ih x) with h1 | h1
      · rw [h1]; exact List.mem_cons_self x (a :: t)
      · exact List.mem_cons_of_mem x (List.mem_cons_of_mem a h1)

theorem popMin_spec (q : List KNode) (nr : KNode × List KNode)
    (h : popMin q = some nr) : nr.1 ∈ q ∧ ∀ y ∈ nr.2, y ∈ q := by
  cases q with
  | nil => cases h
  | cons x xs =>
    simp only [popMin] at h
    cases h
    refine ⟨foldl_nodeMin_mem xs x, ?_⟩
    intro y hy
    exact List.mem_of_mem_erase hy

theorem expandFold_good (C : Mat) (N k : ℕ) (hk : k ≤ N) (node : KNode) :
    ∀ (l : List ℕ) (st : List (ℕ × ℕ) × List KNode),
      (∀ nd ∈ st.2, goodMap N k nd.mapping) →
      ∀ nd ∈ (l.foldl (fun (st : List (ℕ × ℕ) × List KNode) i =>
        let rc := (i, mGet node.mapping i)
        let newExc := node.exc ++ [rc]
        let acc := match solve_with_constraints C N k st.1 newExc with
          | some cm => st.2 ++ [⟨cm.1, st.1, newExc, cm.2⟩]
          | none => st.2
        (st.1 ++ [rc], acc)) st).2, goodMap N k nd.mapping := by
  intro l
  induction l with
  | nil => intro st hst; exact hst
  | cons a t ih =>
    intro st hst
    simp only [List.foldl_cons]
    apply ih
    intro nd hnd
    simp only at hnd
    cases hswc : solve_with_constraints C N k st.1
        (node.exc ++ [(a, mGet node.mapping a)]) with
    | none =>
      rw [hswc] at hnd
      exact hst nd hnd
    | some cm =>
      rw [hswc] at hnd
      rcases List.mem_append.mp hnd with h1 | h1
      · exact hst nd h1
      · rw [List.mem_singleton] at h1
        subst h1
        exact solve_with_constraints_good C N k hk st.1 _ cm.1 cm.2
          (by rw [hswc])

theorem expandChildren_good (C : Mat) (N k : ℕ) (hk : k ≤ N) (node : KNode) :
    ∀ nd ∈ expandChildren C N k node, goodMap N k nd.mapping := by
  intro nd hnd
  rw [expandChildren] at hnd
  exact expandFold_good C N k hk node (List.range k) (node.inc, [])
    (by intro x hx; cases hx) nd hnd

theorem kbLoop_good (C : Mat) (N k maxSol : ℕ) (hk : k ≤ N) :
    ∀ (fuel : ℕ) (st : KBState),
      (∀ nd ∈ st.queue, goodMap N k nd.mapping) →
      (∀ s ∈ st.sols, goodMap N k s.2) →
      ∀ s ∈ (kbLoop C N k maxSol fuel st).sols, goodMap N k s.2 := by
  intro fuel
  induction fuel with
  | zero => intro st _ hs; exact hs
  | succ fuel ih =>
    intro st hq hs
    rw [kbLoop]
    split_ifs with hlen
    · cases hpop : popMin st.queue with
      | none => exact hs
      | some nr =>
        obtain ⟨hmem, hsub⟩ := popMin_spec st.queue nr hpop
        dsimp only
        by_cases hseen : nr.1.mapping ∈ st.seen
        · rw [if_pos hseen]
          exact ih ⟨nr.2, st.seen, st.sols⟩
            (fun nd hnd => hq nd (hsub nd hnd)) hs
        · rw [if_neg hseen]
          apply ih
          · intro nd hnd
            rcases List.mem_append.mp hnd with h1 | h1
            · exact hq nd (hsub nd h1)
            · exact expandChildren_good C N k hk nr.1 nd h1
          · intro s hsmem
            rcases List.mem_append.mp hsmem with h1 | h1
            · exact hs s h1
            · rw [List.mem_singleton] at h1
              subst h1
              exact hq nr.1 hmem
    · exact hs

theorem compute_k_best_good (C : Mat) (N k maxSol : ℕ) (hk : k ≤ N) :
    ∀ s ∈ compute_k_best C N k maxSol, goodMap N k s.2 := by
  intro s hs
  rw [compute_k_best] at hs
  cases hswc : solve_with_constraints C N k [] [] with
  | none => rw [hswc] at hs; cases hs
  | some cm =>
    rw [hswc] at hs
    refine kbLoop_good C N k maxSol hk (maxSol * k + maxSol + 2)
      ⟨[⟨cm.1, [], [], cm.2⟩], [], []⟩ ?_ ?_ s hs
    · intro nd hnd
      rw [List.mem_singleton] at hnd
      subst hnd
      exact solve_with_constraints_good C N k hk [] [] cm.1 cm.2
        (by rw [hswc])
    · intro s hsm
      cases hsm

theorem get_solution_mem (sols : List (ℤ × List ℕ)) (j : ℕ) (m : List ℕ)
    (h : get_solution sols j = some m) : ∃ s ∈ sols, s.2 = m := by
  rw [get_solution] at h
  split_ifs at h with hcond
  · injection h with h1
    have hlt : j - 1 < sols.length := by omega
    refine ⟨sols.getD (j - 1) (0, []), ?_, h1⟩
    rw [List.getD_eq_getElem _ _ hlt]
    exact List.getElem_mem hlt

theorem solver_directed_goodMap (C : Mat) (N k j : ℕ) (hk : k ≤ N) :
    goodMap N k (k_best_assignment_solver_directed C N j (some k)) := by
  simp only [k_best_assignment_solver_directed, Option.getD_some]
  by_cases hj : j = 1
  · rw [if_pos hj]
    exact take_goodMap (lsa_perm C N) hk
  · rw [if_neg hj]
    cases hget : get_solution (compute_k_best C N k (min (j + 10) 100)) j with
    | some m =>
      obtain ⟨s, hsmem, hsm⟩ := get_solution_mem _ j m hget
      rw [← hsm]
      exact compute_k_best_good C N k _ hk s hsmem
    | none =>
      by_cases hne : compute_k_best C N k (min (j + 10) 100) ≠ []
      · rw [dif_pos hne]
        exact compute_k_best_good C N k _ hk _ (List.getLast_mem hne)
      · rw [dif_neg hne]
        refine ⟨List.nodup_range k, List.length_range k, ?_⟩
        intro x hx
        exact lt_of_lt_of_le (List.mem_range.mp hx) hk

theorem jLoopD_good (C : Mat) (N k : ℕ) (used : List (Finset ℕ)) (hk : k ≤ N) :
    ∀ (fuel j : ℕ) (m : List ℕ),
      jLoopD C N k used fuel j = some m → goodMap N k m := by
  intro fuel
  induction fuel with
  | zero => intro j m h; cases h
  | succ fuel ih =>
    intro j m h
    simp only [jLoopD] at h
    split_ifs at h with h1 h2
    · exact ih (j + 1) m h
    · injection h with h1
      rw [← h1]
      exact solver_directed_goodMap C N k j hk

/-! ## The accumulated cost equals the total matrix increment -/

theorem runDAux_entrySum (A_P : Mat) (N k : ℕ) (Pdeg : ℕ → ℤ) (hk : k ≤ N) :
    ∀ (n : ℕ) (A : Mat) (total : ℤ) (used : List (Finset ℕ)) (B : Mat) (T : ℤ),
      runDAux A_P N k Pdeg A total used n = .ok (B, T) →
      T + entrySum A N = total + entrySum B N := by
  intro n
  induction n with
  | zero =>
    intro A total used B T h
    simp only [runDAux, Except.ok.injEq, Prod.mk.injEq] at h
    rcases h with ⟨rfl, rfl⟩
    rfl
  | succ n ih =>
    intro A total used B T h
    simp only [runDAux] at h
    by_cases hg : k ≤ 3 ∧ N ≤ 10
    · rw [if_pos hg] at h
      cases hx : exhaustiveSelect A A_P N k used with
      | none => rw [hx] at h; exact absurd h (by simp)
      | some mc =>
        rw [hx] at h
        obtain ⟨hnd, hlen, hlt, _, _, _⟩ :=
          exhaustiveSelect_some_spec A A_P N k used mc.1 mc.2 (by rw [hx])
        have hstep := apply_extension_directed_entrySum A A_P N k mc.1 hnd hlen hlt
        have hrec := ih _ _ _ _ _ h
        rw [hstep] at hrec
        linarith
    · rw [if_neg hg] at h
      cases hj : jLoopD
          (if k ≤ 4 then build_cost_matrix_quadratic_directed A A_P k N
           else build_cost_matrix_directed Pdeg (calculate_total_degrees A N) k N)
          N k used 1000 1 with
      | none => rw [hj] at h; exact absurd h (by simp)
      | some m =>
        rw [hj] at h
        obtain ⟨hnd, hlen, hlt⟩ := jLoopD_good _ N k used hk 1000 1 m hj
        have hstep := apply_extension_directed_entrySum A A_P N k m hnd hlen hlt
        have hrec := ih _ _ _ _ _ h
        rw [hstep] at hrec
        linarith

/-- C8: for every completed directed run, the returned total cost equals
the sum over all `N × N` entries of the difference between the final and
the input matrix; moreover each applied iteration increases the entry sum
by exactly the exact extension cost computed for the applied mapping (the
run accumulates precisely those per-iteration costs). -/
theorem directed_cost_accounting (A_G A_P : Mat) (N k n : ℕ) (B : Mat)
    (total : ℤ) (hk : k ≤ N)
    (h : find_minimal_extension_v3_directed A_G A_P N k n = .ok (B, total)) :
    total = entrySum B N - entrySum A_G N
    ∧ (∀ (A : Mat) (m : List ℕ), m.Nodup → m.length = k →
        (∀ x ∈ m, x < N) →
        entrySum (apply_extension_directed A A_P k m) N
          = entrySum A N + calculate_extension_cost_directed A A_P k m) := by
  constructor
  · have hsum := runDAux_entrySum A_P N k (calculate_total_degrees A_P k) hk
      n A_G 0 [] B total h
    linarith
  · intro A m hnd hlen hlt
    exact apply_extension_directed_entrySum A A_P N k m hnd hlen hlt

theorem directed_cost_accounting_witness :
    (1 ≤ 1
      ∧ find_minimal_extension_v3_directed zeroMat zeroMat 1 1 1
          = .ok (zeroMat, 0)) ∧
    ((0 : ℤ) = entrySum zeroMat 1 - entrySum zeroMat 1
      ∧ (∀ (A : Mat) (m : List ℕ), m.Nodup → m.length = 1 →
          (∀ x ∈ m, x < 1) →
          entrySum (apply_extension_directed A zeroMat 1 m) 1
            = entrySum A 1 + calculate_extension_cost_directed A zeroMat 1 m)) :=
  ⟨⟨le_refl 1, find_minimal_extension_v3_directed_self 1 zeroMat⟩,
   directed_cost_accounting zeroMat zeroMat 1 1 1 zeroMat 0 (le_refl 1)
     (find_minimal_extension_v3_directed_self 1 zeroMat)⟩


/-! ## The Murty enumeration never records the same mapping twice -/

theorem kbLoop_sols_nodup (C : Mat) (N k maxSol : ℕ) :
    ∀ (fuel : ℕ) (st : KBState),
      (∀ m ∈ st.sols.map Prod.snd, m ∈ st.seen) →
      (st.sols.map Prod.snd).Nodup →
      ((kbLoop C N k maxSol fuel st).sols.map Prod.snd).Nodup := by
  intro fuel
  induction fuel with
  | zero => intro st _ hnd; exact hnd
  | succ fuel ih =>
    intro st hsub hnd
    rw [kbLoop]
    split_ifs with hlen
    · cases hpop : popMin st.queue with
      | none => exact hnd
      | some nr =>
        dsimp only
        by_cases hseen : nr.1.mapping ∈ st.seen
        · rw [if_pos hseen]
          exact ih ⟨nr.2, st.seen, st.sols⟩ hsub hnd
        · rw [if_neg hseen]
          apply ih
          · intro m hm
            rw [List.map_append] at hm
            rcases List.mem_append.mp hm with h1 | h1
            · exact List.mem_append.mpr (Or.inl (hsub m h1))
            · rw [List.map_cons, List.map_nil, List.mem_singleton] at h1
              subst h1
              exact List.mem_append.mpr (Or.inr (List.mem_singleton.mpr rfl))
          · rw [List.map_append, List.map_cons, List.map_nil]
            apply List.Nodup.append hnd (List.nodup_singleton _)
            intro m h1 h2
            rw [List.mem_singleton] at h2
            subst h2
            exact hseen (hsub _ h1)
    · exact hnd

/-- In the solutions list of `compute_k_best`, the recorded mappings are
pairwise distinct (the `seen` registry deduplicates every emission). -/
theorem compute_k_best_distinct (C : Mat) (N k maxSol : ℕ) :
    ((compute_k_best C N k maxSol).map Prod.snd).Nodup := by
  rw [compute_k_best]
  cases hswc : solve_with_constraints C N k [] [] with
  | none => exact List.nodup_nil
  | some cm =>
    exact kbLoop_sols_nodup C N k maxSol (maxSol * k + maxSol + 2)
      ⟨[⟨cm.1, [], [], cm.2⟩], [], []⟩ (by intro m hm; cases hm)
      List.nodup_nil

end Subgraphs
